import Mathlib

/-!
Verification of `fix_brands.py`, a single-file utility that repairs a known
malformed JSON file (`src/config/salesforce-picklists/brands.json`) by nine
literal string substitutions, validates the result with `json.loads`, reports
the entry count, and rewrites the file with `json.dump(data, f, indent=2)`.

The embedding works over `List Char` (Python `str` is a sequence of code
points).  Python's `str.replace` is modelled by `strReplace`, the fix table by
`fixes`, the patch loop by `applyFixes`, `json.loads` by `jsonLoads`,
`json.dump` with `indent=2` by `jsonDump`, Python's `len` on the parsed value
by `pyLen`, and the whole script run by `runOnContent` / `runScript`.

Modelling restriction, stated once here: JSON numbers are modelled as
integers only.  `jsonLoads` rejects fractional/exponent literals and the
non-standard `NaN`/`Infinity` constants that CPython would parse into binary64
floats, and `\uXXXX` escapes that would denote lone UTF-16 surrogates are
rejected (Lean `Char` carries only Unicode scalar values).  No claim below
depends on float values or lone surrogates; all other behaviour
(whitespace, escapes, duplicate object keys, literal substitution, control
flow, error handling) follows CPython.
-/

/-! ## Python `str.replace` (literal, left-to-right, non-overlapping) -/

/-- Scanner for `str.replace`: at each position, if `old` is a literal prefix
of the remaining text, emit `new` and skip past the match, else keep the
character.  `fuel` is an upper bound on the number of scan steps; it is always
called with `fuel ≥ length` so the `0`-case is unreachable.  Structural
recursion on `fuel` keeps the definition kernel-reducible. -/
def replaceGo (old new : List Char) : Nat → List Char → List Char
  | _, [] => []
  | 0, s => s
  | fuel + 1, c :: rest =>
    if old.isPrefixOf (c :: rest) then
      new ++ replaceGo old new fuel (rest.drop (old.length - 1))
    else
      c :: replaceGo old new fuel rest

/-- Python `s.replace(old, new)`.  For empty `old`, Python inserts `new`
before every character and at the end (`"ab".replace("", "X") = "XaXbX"`). -/
def strReplace (old new s : List Char) : List Char :=
  match old with
  | [] => new ++ s.foldr (fun c acc => c :: (new ++ acc)) []
  | _ :: _ => replaceGo old new s.length s

/-- Literal substring occurrence (as a proposition). -/
def Occurs (p s : List Char) : Prop := ∃ a b, s = a ++ p ++ b

/-- Executable substring test, used to discharge `Occurs` side conditions on
concrete inputs. -/
def containsSub (p : List Char) : List Char → Bool
  | [] => p.isPrefixOf []
  | c :: t => p.isPrefixOf (c :: t) || containsSub p t

/-! ## The fix table and the patch loop of `fix_brands.py` -/

/-- The nine `(pattern, replacement)` pairs of `fix_brands.py`, in source
order.  Each pattern is an unterminated quoted brand name ending in a raw
newline; each replacement is the properly closed string. -/
def fixes : List (List Char × List Char) := [
  (("\"CAPITAL LIGHTING FIXTURE C\n").toList, ("\"CAPITAL LIGHTING FIXTURE COMPANY\"").toList),
  (("\"HOME DECORATORS COLLECTION\n").toList, ("\"HOME DECORATORS COLLECTION\"").toList),
  (("\"DCS by FISHER &amp; PAYKEL\n").toList, ("\"DCS by FISHER & PAYKEL\"").toList),
  (("\"Mountain Plumbing Products\n").toList, ("\"Mountain Plumbing Products\"").toList),
  (("\"HOME REFINEMENTS BY JULIEN\n").toList, ("\"HOME REFINEMENTS BY JULIEN\"").toList),
  (("\"CHARLOTTE PIPE AND FOUNDRY\n").toList, ("\"CHARLOTTE PIPE AND FOUNDRY\"").toList),
  (("\"METROPOLITAN LIGHTING FIXT\n").toList, ("\"METROPOLITAN LIGHTING FIXTURES\"").toList),
  (("\"WATTS MUELLER STEAM SPECIA\n").toList, ("\"WATTS MUELLER STEAM SPECIALTIES\"").toList),
  (("\"Preferred Bath Accessories\n").toList, ("\"Preferred Bath Accessories\"").toList)]

/-- The pattern of the `i`-th fix rule (defaulting to `[]` off range). -/
def patAt (i : Nat) : List Char := (fixes.getD i ([], [])).1

/-- The replacement of the `i`-th fix rule. -/
def repAt (i : Nat) : List Char := (fixes.getD i ([], [])).2

/-- The patch loop: `for old, new in fixes: content = content.replace(old, new)`. -/
def applyFixes (content : List Char) : List Char :=
  fixes.foldl (fun t pr => strReplace pr.1 pr.2 t) content

example : strReplace ("ab").toList ("X").toList ("zababy").toList = ("zXXy").toList := by decide
example : strReplace ("aa").toList ("b").toList ("aaa").toList = ("ba").toList := by decide
example : strReplace ("").toList ("X").toList ("ab").toList = ("XaXbX").toList := by decide
example : containsSub ("ab").toList ("zaby").toList = true := by decide
example : containsSub ("ab").toList ("zaay").toList = false := by decide

/-! ## JSON values (numbers restricted to integers, see header) -/

/-- Parsed JSON value, the shallow model of what `json.loads` returns.
Objects are association lists in Python `dict` insertion order with
duplicate keys already resolved (later value wins, position of first
insertion kept), exactly as CPython's `json` builds its `dict`. -/
inductive JsonVal where
  | null : JsonVal
  | bool : Bool → JsonVal
  | num : Int → JsonVal
  | str : List Char → JsonVal
  | arr : List JsonVal → JsonVal
  | obj : List (List Char × JsonVal) → JsonVal

/-! ## Lexical helpers shared by parser and serializer -/

/-- JSON whitespace accepted between tokens (RFC 8259 / CPython `json`). -/
def isWsC (c : Char) : Bool := c = ' ' || c = '\t' || c = '\n' || c = '\r'

/-- Skip leading JSON whitespace. -/
def skipWs (s : List Char) : List Char := s.dropWhile isWsC

/-- ASCII decimal digit test. -/
def isDigitC (c : Char) : Bool := '0' ≤ c && c ≤ '9'

/-- Numeric value of a decimal digit character. -/
def digitVal (c : Char) : Nat := c.toNat - '0'.toNat

/-- Numeric value of a hexadecimal digit character, if any (both cases). -/
def hexVal (c : Char) : Option Nat :=
  let n := c.toNat
  if isDigitC c then some (digitVal c)
  else if (('a').toNat ≤ n) && (n ≤ ('f').toNat) then some (n + 10 - ('a').toNat)
  else if (('A').toNat ≤ n) && (n ≤ ('F').toNat) then some (n + 10 - ('A').toNat)
  else none

/-- Read exactly four hex digits (a `\uXXXX` payload). -/
def parseHex4 : List Char → Option (Nat × List Char)
  | a :: b :: c :: d :: r =>
    match hexVal a, hexVal b, hexVal c, hexVal d with
    | some va, some vb, some vc, some vd => some (va * 4096 + vb * 256 + vc * 16 + vd, r)
    | _, _, _, _ => none
  | _ => none

/-- Decimal digits of a string, most significant first, folded to a `Nat`. -/
def digitsToNat (ds : List Char) : Nat := ds.foldl (fun a c => a * 10 + digitVal c) 0

/-- Parse a JSON string body after the opening quote: plain characters
(raw control characters rejected, as CPython does with `strict=True`),
short escapes, and `\uXXXX` with surrogate-pair recombination.  `fuel`
bounds the number of source characters and is always supplied as
`length + 1`. -/
def parseStrGo : Nat → List Char → Option (List Char × List Char)
  | 0, _ => none
  | _ + 1, [] => none
  | f + 1, c :: r =>
    if c = '"' then some ([], r)
    else if c = '\\' then
      match r with
      | [] => none
      | e :: r1 =>
        if e = '"' then (parseStrGo f r1).map (fun p => ('"' :: p.1, p.2))
        else if e = '\\' then (parseStrGo f r1).map (fun p => ('\\' :: p.1, p.2))
        else if e = '/' then (parseStrGo f r1).map (fun p => ('/' :: p.1, p.2))
        else if e = 'b' then (parseStrGo f r1).map (fun p => ('\x08' :: p.1, p.2))
        else if e = 'f' then (parseStrGo f r1).map (fun p => ('\x0c' :: p.1, p.2))
        else if e = 'n' then (parseStrGo f r1).map (fun p => ('\n' :: p.1, p.2))
        else if e = 'r' then (parseStrGo f r1).map (fun p => ('\r' :: p.1, p.2))
        else if e = 't' then (parseStrGo f r1).map (fun p => ('\t' :: p.1, p.2))
        else if e = 'u' then
          match parseHex4 r1 with
          | none => none
          | some (n, r2) =>
            if 0xd800 ≤ n && n ≤ 0xdbff then
              match r2 with
              | '\\' :: 'u' :: r3 =>
                match parseHex4 r3 with
                | none => none
                | some (n2, r4) =>
                  if 0xdc00 ≤ n2 && n2 ≤ 0xdfff then
                    (parseStrGo f r4).map (fun p =>
                      (Char.ofNat (0x10000 + (n - 0xd800) * 0x400 + (n2 - 0xdc00)) :: p.1, p.2))
                  else none
              | _ => none
            else if 0xdc00 ≤ n && n ≤ 0xdfff then none
            else (parseStrGo f r2).map (fun p => (Char.ofNat n :: p.1, p.2))
        else none
    else if c.toNat < 0x20 then none
    else (parseStrGo f r).map (fun p => (c :: p.1, p.2))

/-- Does the remaining input continue a number into float territory
(fraction or exponent)?  Such numbers are outside the integer model. -/
def floatFollow : List Char → Bool
  | c :: _ => c = '.' || c = 'e' || c = 'E'
  | [] => false

/-- Parse a natural number literal per the JSON grammar: `0`, or a nonzero
digit followed by digits (`0` followed by more digits ends the literal,
as in CPython, where the extra digits then fail at the structural level). -/
def parseNatTok : List Char → Option (Nat × List Char)
  | [] => none
  | c :: r =>
    if c = '0' then some (0, r)
    else if isDigitC c then
      some (digitsToNat ((c :: r).takeWhile isDigitC), (c :: r).dropWhile isDigitC)
    else none

/-- Parse an integer literal (optional leading minus). -/
def parseIntTok : List Char → Option (Int × List Char)
  | [] => none
  | c :: r =>
    if c = '-' then
      (parseNatTok r).bind fun p => if floatFollow p.2 then none else some (-(p.1 : Int), p.2)
    else
      (parseNatTok (c :: r)).bind fun p =>
        if floatFollow p.2 then none else some ((p.1 : Int), p.2)

/-- Is the key already bound in the association list? -/
def keyMem (k : List Char) (l : List (List Char × JsonVal)) : Bool :=
  l.any fun p => p.1 == k

/-- Rebind an existing key in place (Python `dict` keeps the first-insertion
position and updates the value). -/
def setKey (k : List Char) (v : JsonVal) : List (List Char × JsonVal) → List (List Char × JsonVal)
  | [] => []
  | p :: rest => if p.1 == k then (k, v) :: rest else p :: setKey k v rest

/-- One `dict[key] = value` step. -/
def objInsert (l : List (List Char × JsonVal)) (kv : List Char × JsonVal) :
    List (List Char × JsonVal) :=
  if keyMem kv.1 l then setKey kv.1 kv.2 l else l ++ [kv]

/-- Resolve duplicate keys the way CPython's `json` builds its `dict`. -/
def dedupPairs (ps : List (List Char × JsonVal)) : List (List Char × JsonVal) :=
  ps.foldl objInsert []

/-- Match an exact literal continuation (CPython's slice comparisons for
`null`, `true`, `false`), returning the remainder. -/
def stripLit : List Char → List Char → Option (List Char)
  | [], s => some s
  | _ :: _, [] => none
  | c :: cs, d :: s => if c = d then stripLit cs s else none

mutual

/-- Recursive-descent JSON value parser, the model of CPython's scanner.
Skips leading whitespace, then dispatches on the first character.  `fuel`
bounds the recursion depth; `jsonLoads` supplies `2·length + 2`, which always
suffices because at least one character is consumed per two fuel units. -/
def parseVal : Nat → List Char → Option (JsonVal × List Char)
  | 0, _ => none
  | f + 1, s =>
    match skipWs s with
    | [] => none
    | c :: r =>
      if c = 'n' then
        match stripLit ['u', 'l', 'l'] r with
        | some r1 => some (.null, r1)
        | none => none
      else if c = 't' then
        match stripLit ['r', 'u', 'e'] r with
        | some r1 => some (.bool true, r1)
        | none => none
      else if c = 'f' then
        match stripLit ['a', 'l', 's', 'e'] r with
        | some r1 => some (.bool false, r1)
        | none => none
      else if c = '"' then
        (parseStrGo (r.length + 1) r).map fun p => (.str p.1, p.2)
      else if c = '[' then
        match skipWs r with
        | [] => none
        | c1 :: r1 =>
          if c1 = ']' then some (.arr [], r1)
          else (parseElems f (c1 :: r1)).map fun p => (.arr p.1, p.2)
      else if c = '\x7b' then
        match skipWs r with
        | [] => none
        | c1 :: r1 =>
          if c1 = '\x7d' then some (.obj [], r1)
          else (parseMems f (c1 :: r1)).map fun p => (.obj (dedupPairs p.1), p.2)
      else
        (parseIntTok (c :: r)).map fun p => (.num p.1, p.2)

/-- Parse one or more comma-separated array elements up to `]`. -/
def parseElems : Nat → List Char → Option (List JsonVal × List Char)
  | 0, _ => none
  | f + 1, s =>
    (parseVal f s).bind fun p =>
      match skipWs p.2 with
      | [] => none
      | c :: r1 =>
        if c = ',' then (parseElems f r1).map fun q => (p.1 :: q.1, q.2)
        else if c = ']' then some ([p.1], r1)
        else none

/-- Parse one or more comma-separated object members up to the closing brace. -/
def parseMems : Nat → List Char → Option (List (List Char × JsonVal) × List Char)
  | 0, _ => none
  | f + 1, s =>
    match skipWs s with
    | [] => none
    | c :: r =>
      if c = '"' then
        (parseStrGo (r.length + 1) r).bind fun kp =>
          match skipWs kp.2 with
          | [] => none
          | c2 :: r2 =>
            if c2 = ':' then
              (parseVal f r2).bind fun vp =>
                match skipWs vp.2 with
                | [] => none
                | c3 :: r4 =>
                  if c3 = ',' then (parseMems f r4).map fun q => ((kp.1, vp.1) :: q.1, q.2)
                  else if c3 = '\x7d' then some ([(kp.1, vp.1)], r4)
                  else none
            else none
      else none

end

/-- The model of `json.loads`: parse one JSON document and require that only
whitespace follows (CPython raises `Extra data` otherwise); `none` stands for
`json.JSONDecodeError`. -/
def jsonLoads (s : List Char) : Option JsonVal :=
  match parseVal (2 * s.length + 2) s with
  | some (v, rest) => if skipWs rest = [] then some v else none
  | none => none

example : jsonLoads ("[1, 2]").toList = some (.arr [.num 1, .num 2]) := rfl
example : jsonLoads (" \n[\"a\", \x7b\"k\": null\x7d, true]").toList
    = some (.arr [.str ("a").toList, .obj [(("k").toList, .null)], .bool true]) := rfl
example : jsonLoads ("[1,]").toList = none := rfl
example : jsonLoads ("1.5").toList = none := rfl
example : jsonLoads ("-12").toList = some (.num (-12)) := rfl
example : jsonLoads ("\"a\\u00e9\\nb\"").toList
    = some (.str ('a' :: Char.ofNat 0xe9 :: '\n' :: 'b' :: [])) := rfl
example : jsonLoads ("\"\\ud83d\\ude00\"").toList = some (.str [Char.ofNat 0x1f600]) := rfl
example : jsonLoads ("\x7b\"a\": 1, \"a\": 2\x7d").toList
    = some (.obj [(("a").toList, .num 2)]) := rfl
example : jsonLoads ("[0123]").toList = none := rfl
example : jsonLoads ("").toList = none := rfl

/-! ## Serializer: `json.dump(data, f, indent=2)` with CPython defaults
(`ensure_ascii=True`, `sort_keys=False`, separators `(',', ': ')`). -/

/-- Decimal digits of a natural number, most significant first. -/
def natToDigits (n : Nat) : List Char :=
  if n < 10 then [Char.ofNat ('0'.toNat + n)]
  else natToDigits (n / 10) ++ [Char.ofNat ('0'.toNat + n % 10)]
decreasing_by exact Nat.div_lt_self (by omega) (by omega)

/-- Python `repr` of an `int`: optional minus sign and decimal digits. -/
def intToChars : Int → List Char
  | .ofNat n => natToDigits n
  | .negSucc m => '-' :: natToDigits (m + 1)

/-- Lowercase hexadecimal digit, as CPython's `'\u%04x'` formatting emits. -/
def hexDig (n : Nat) : Char :=
  Char.ofNat (if n < 10 then ('0').toNat + n else ('a').toNat + n - 10)

/-- A `\uXXXX` escape for a 16-bit unit. -/
def uEsc (n : Nat) : List Char :=
  '\\' :: 'u' :: hexDig (n / 4096 % 16) :: hexDig (n / 256 % 16) ::
    hexDig (n / 16 % 16) :: hexDig (n % 16) :: []

/-- Serialize one character of a JSON string the way CPython's
`ensure_ascii` encoder does: short escapes for `"` `\` and the five control
characters with names, printable ASCII verbatim, everything else as
`\uXXXX` (a surrogate pair beyond the BMP). -/
def escChar (c : Char) : List Char :=
  if c = '"' then '\\' :: '"' :: []
  else if c = '\\' then '\\' :: '\\' :: []
  else if c = '\n' then '\\' :: 'n' :: []
  else if c = '\t' then '\\' :: 't' :: []
  else if c = '\r' then '\\' :: 'r' :: []
  else if c = '\x08' then '\\' :: 'b' :: []
  else if c = '\x0c' then '\\' :: 'f' :: []
  else if 0x20 ≤ c.toNat && c.toNat ≤ 0x7e then [c]
  else if c.toNat < 0x10000 then uEsc c.toNat
  else uEsc (0xd800 + (c.toNat - 0x10000) / 0x400) ++ uEsc (0xdc00 + (c.toNat - 0x10000) % 0x400)

/-- Serialize a JSON string with its surrounding quotes. -/
def dumpStr (s : List Char) : List Char := '"' :: (s.flatMap escChar ++ ['"'])

/-- Indentation unit passed to `json.dump` (`indent=2`). -/
def indentW : Nat := 2

/-- Newline plus current indentation, as the indenting encoder emits
between items. -/
def nlInd (lvl : Nat) : List Char := '\n' :: List.replicate (indentW * lvl) ' '

mutual

/-- The model of `json.dump(v, f, indent=2)` at indentation level `lvl`
(the script calls it at level 0).  Matches CPython's indenting encoder:
empty containers collapse to `[]`/the empty braces, non-empty containers
put every item on its own indented line, items separated by `','` +
newline-indent, keys separated from values by `': '`. -/
def jsonDump : JsonVal → Nat → List Char
  | .null, _ => 'n' :: 'u' :: 'l' :: 'l' :: []
  | .bool true, _ => 't' :: 'r' :: 'u' :: 'e' :: []
  | .bool false, _ => 'f' :: 'a' :: 'l' :: 's' :: 'e' :: []
  | .num n, _ => intToChars n
  | .str s, _ => dumpStr s
  | .arr [], _ => '[' :: ']' :: []
  | .arr (x :: xs), lvl =>
    '[' :: (nlInd (lvl + 1) ++ jsonDump x (lvl + 1) ++ dumpElems xs (lvl + 1) ++
      nlInd lvl ++ [']'])
  | .obj [], _ => '\x7b' :: '\x7d' :: []
  | .obj (q :: qs), lvl =>
    '\x7b' :: (nlInd (lvl + 1) ++ dumpStr q.1 ++ ':' :: ' ' :: jsonDump q.2 (lvl + 1) ++
      dumpMems qs (lvl + 1) ++ nlInd lvl ++ ['\x7d'])

/-- Second and later array items, each preceded by `','` + newline-indent. -/
def dumpElems : List JsonVal → Nat → List Char
  | [], _ => []
  | y :: ys, lvl => ',' :: (nlInd lvl ++ jsonDump y lvl ++ dumpElems ys lvl)

/-- Second and later object members. -/
def dumpMems : List (List Char × JsonVal) → Nat → List Char
  | [], _ => []
  | q :: qs, lvl =>
    ',' :: (nlInd lvl ++ dumpStr q.1 ++ ':' :: ' ' :: jsonDump q.2 lvl ++ dumpMems qs lvl)

end

/-! ## The script itself -/

/-- Python `len(data)`: defined for `list` (element count), `dict` (key
count) and `str` (code-point count); raises `TypeError` on `int`, `bool`,
`float` and `None`, here `none`. -/
def pyLen : JsonVal → Option Nat
  | .arr xs => some xs.length
  | .obj m => some m.length
  | .str s => some s.length
  | _ => none

/-- The kind of exception caught by the script's `except Exception` block. -/
inductive PyErr where
  | parseError : PyErr
  | lenTypeError : PyErr
deriving DecidableEq

/-- One console line printed by the script. -/
inductive Msg where
  | fixedValidated : Nat → Msg
  | fileSaved : Msg
  | errorMsg : PyErr → Msg
deriving DecidableEq

/-- The body of the script once the initial read has succeeded: patch,
validate inside `try`, print the entry count, write back, print saved;
or catch the exception and print the error.  Returns the console lines in
order and the final content of the file at the fixed path. -/
def runOnContent (c : List Char) : List Msg × List Char :=
  match jsonLoads (applyFixes c) with
  | none => ([Msg.errorMsg PyErr.parseError], c)
  | some v =>
    match pyLen v with
    | none => ([Msg.errorMsg PyErr.lenTypeError], c)
    | some n => ([Msg.fixedValidated n, Msg.fileSaved], jsonDump v 0)

/-- Outcome of one whole run.  The initial `open(..., 'r')` happens outside
the `try` block, so a read failure propagates as an uncaught exception and
the interpreter prints a traceback: no script message is produced. -/
inductive RunOutcome where
  | uncaughtIOError : RunOutcome
  | completed : List Msg → List Char → RunOutcome
deriving DecidableEq

/-- A whole run of `fix_brands.py`: `none` models a failing read of the
input file. -/
def runScript : Option (List Char) → RunOutcome
  | none => RunOutcome.uncaughtIOError
  | some c => RunOutcome.completed (runOnContent c).1 (runOnContent c).2

/-- Whether a run completed (reached the script's own reporting at all). -/
def isCompleted : RunOutcome → Bool
  | RunOutcome.uncaughtIOError => false
  | RunOutcome.completed _ _ => true

/-- The path read by the script. -/
def readPath : String := "src/config/salesforce-picklists/brands.json"

/-- The path written by the script. -/
def writePath : String := "src/config/salesforce-picklists/brands.json"

/-! ## Basic facts about prefixes, occurrences and `strReplace` -/

/-- `isPrefixOf` is the executable form of "is a literal prefix". -/
theorem isPre_iff (p s : List Char) : p.isPrefixOf s = true ↔ ∃ t, s = p ++ t := by
  induction p generalizing s with
  | nil => simp [List.isPrefixOf]
  | cons a as ih =>
    cases s with
    | nil => simp [List.isPrefixOf]
    | cons b bs =>
      simp only [List.isPrefixOf, Bool.and_eq_true, beq_iff_eq, ih, List.cons_append,
        List.cons.injEq]
      constructor
      · rintro ⟨rfl, t, rfl⟩; exact ⟨t, rfl, rfl⟩
      · rintro ⟨t, rfl, rfl⟩; exact ⟨rfl, t, rfl⟩

theorem isPre_self_append (p t : List Char) : p.isPrefixOf (p ++ t) = true :=
  (isPre_iff p (p ++ t)).mpr ⟨t, rfl⟩

theorem occurs_append_right {p b : List Char} (a : List Char) (h : Occurs p b) :
    Occurs p (a ++ b) := by
  obtain ⟨x, y, rfl⟩ := h
  exact ⟨a ++ x, y, by simp⟩

theorem occurs_append_left {p a : List Char} (h : Occurs p a) (b : List Char) :
    Occurs p (a ++ b) := by
  obtain ⟨x, y, rfl⟩ := h
  exact ⟨x, y ++ b, by simp⟩

theorem occurs_cons {p t : List Char} (c : Char) (h : Occurs p t) : Occurs p (c :: t) := by
  obtain ⟨x, y, rfl⟩ := h
  exact ⟨c :: x, y, rfl⟩

/-- `containsSub` decides `Occurs`. -/
theorem containsSub_iff (p s : List Char) : containsSub p s = true ↔ Occurs p s := by
  induction s with
  | nil =>
    simp only [containsSub, isPre_iff, Occurs]
    constructor
    · rintro ⟨t, ht⟩; exact ⟨[], t, ht⟩
    · rintro ⟨a, b, h⟩
      rcases a with _ | ⟨c, a⟩
      · exact ⟨b, h⟩
      · simp at h
  | cons c t ih =>
    simp only [containsSub, Bool.or_eq_true, isPre_iff, ih]
    constructor
    · rintro (⟨u, hu⟩ | h)
      · exact ⟨[], u, hu⟩
      · exact occurs_cons c h
    · rintro ⟨a, b, h⟩
      rcases a with _ | ⟨d, a⟩
      · exact Or.inl ⟨b, h⟩
      · simp only [List.cons_append, List.cons.injEq] at h
        exact Or.inr ⟨a, b, h.2⟩

theorem not_occurs_of_containsSub {p s : List Char} (h : containsSub p s = false) :
    ¬ Occurs p s := fun hc => by simp [(containsSub_iff p s).mpr hc] at h

/-- Fuel does not matter for the `str.replace` scanner as long as it covers
the input length. -/
theorem replaceGo_fuel (old new : List Char) :
    ∀ f g s, s.length ≤ f → s.length ≤ g → replaceGo old new f s = replaceGo old new g s := by
  intro f
  induction f with
  | zero =>
    intro g s hf _
    have : s = [] := List.eq_nil_of_length_eq_zero (Nat.le_zero.mp hf)
    subst this
    cases g <;> rfl
  | succ f ih =>
    intro g s hf hg
    cases s with
    | nil => cases g <;> rfl
    | cons c rest =>
      cases g with
      | zero => simp at hg
      | succ g =>
        simp only [replaceGo]
        by_cases hp : old.isPrefixOf (c :: rest) = true
        · rw [hp]
          simp only [if_true]
          congr 1
          exact ih g _ (by simp [List.length_drop] at hf ⊢; omega)
            (by simp [List.length_drop] at hg ⊢; omega)
        · rw [Bool.not_eq_true] at hp
          rw [hp]
          simp only [Bool.false_eq_true, if_false, List.cons.injEq, true_and]
          exact ih g rest (by simp at hf; omega) (by simp at hg; omega)

/-- Scanning past a region with no match keeps it verbatim. -/
theorem strReplace_skip {old : List Char} (new : List Char) (hne : old ≠ []) :
    ∀ a s, (∀ k, k < a.length → old.isPrefixOf ((a ++ s).drop k) = false) →
      strReplace old new (a ++ s) = a ++ strReplace old new s := by
  intro a
  induction a with
  | nil => intro s _; simp
  | cons c a ih =>
    intro s hk
    obtain ⟨o, os, rfl⟩ : ∃ o os, old = o :: os := by
      cases old with
      | nil => exact absurd rfl hne
      | cons o os => exact ⟨o, os, rfl⟩
    show replaceGo (o :: os) new (c :: (a ++ s)).length (c :: (a ++ s)) = _
    have h0 := hk 0 (by simp)
    simp only [List.drop_zero] at h0
    simp only [List.length_cons, replaceGo, List.cons_append] at h0 ⊢
    rw [h0]
    simp only [Bool.false_eq_true, if_false, List.cons_append, List.cons.injEq, true_and]
    have := ih s (fun k hlt => by
      have := hk (k + 1) (by simp; omega)
      simpa using this)
    simpa [strReplace] using this

/-- A match at the current position is replaced and the scanner jumps past it. -/
theorem strReplace_match {old : List Char} (new : List Char) (hne : old ≠ []) (s : List Char) :
    strReplace old new (old ++ s) = new ++ strReplace old new s := by
  obtain ⟨o, os, rfl⟩ : ∃ o os, old = o :: os := by
    cases old with
    | nil => exact absurd rfl hne
    | cons o os => exact ⟨o, os, rfl⟩
  show replaceGo (o :: os) new ((o :: os) ++ s).length ((o :: os) ++ s) = _
  have hlen : ((o :: os) ++ s).length = (os.length + s.length) + 1 := by simp
  rw [hlen]
  show (if (o :: os).isPrefixOf (o :: (os ++ s)) = true then
      (new ++ replaceGo (o :: os) new (os.length + s.length) ((os ++ s).drop ((o :: os).length - 1)))
    else (o :: replaceGo (o :: os) new (os.length + s.length) (os ++ s))) = _
  rw [show (o :: (os ++ s)) = (o :: os) ++ s from rfl, isPre_self_append]
  simp only [if_true, List.length_cons, Nat.add_sub_cancel]
  rw [List.drop_append_of_le_length (Nat.le_refl _), List.drop_length, List.nil_append]
  congr 1
  exact replaceGo_fuel _ _ _ _ _ (by omega) (Nat.le_refl _)

/-- With no occurrence at all, `str.replace` is the identity. -/
theorem strReplace_id {old : List Char} (new : List Char) (hne : old ≠ []) :
    ∀ s, ¬ Occurs old s → strReplace old new s = s := by
  obtain ⟨o, os, rfl⟩ : ∃ o os, old = o :: os := by
    cases old with
    | nil => exact absurd rfl hne
    | cons o os => exact ⟨o, os, rfl⟩
  intro s hocc
  show replaceGo (o :: os) new s.length s = s
  induction s with
  | nil => rfl
  | cons c rest ih =>
    simp only [List.length_cons, replaceGo]
    have hp : (o :: os).isPrefixOf (c :: rest) = false := by
      rw [Bool.eq_false_iff]
      intro h
      obtain ⟨t, ht⟩ := (isPre_iff _ _).mp h
      exact hocc ⟨[], t, by simpa using ht⟩
    rw [hp]
    simp only [Bool.false_eq_true, if_false, List.cons.injEq, true_and]
    exact ih (fun h => hocc (occurs_cons c h))

/-! ## The patch loop as nine ordered replacements -/

theorem patAt_ne_nil : ∀ pr ∈ fixes, pr.1 ≠ [] := by decide

/-- Replacing over a rule list none of whose patterns occur is the identity. -/
theorem foldl_replace_id :
    ∀ (rs : List (List Char × List Char)) (c : List Char),
      (∀ pr ∈ rs, pr.1 ≠ [] ∧ ¬ Occurs pr.1 c) →
      rs.foldl (fun t pr => strReplace pr.1 pr.2 t) c = c := by
  intro rs
  induction rs with
  | nil => intro c _; rfl
  | cons pr rest ih =>
    intro c h
    have h0 := h pr (by simp)
    rw [List.foldl_cons, strReplace_id pr.2 h0.1 c h0.2]
    exact ih c (fun q hq => h q (by simp [hq]))

/-- A text containing none of the nine patterns passes through the patch
loop unchanged. -/
theorem applyFixes_id {c : List Char} (h : ∀ pr ∈ fixes, ¬ Occurs pr.1 c) :
    applyFixes c = c :=
  foldl_replace_id fixes c (fun pr hpr => ⟨patAt_ne_nil pr hpr, h pr hpr⟩)

/-! ## Claim C2: a failed parse leaves the file untouched and is reported -/

/-- C2: for every input whose patched text fails to parse as JSON, the
script performs no write — the file on disk stays byte-for-byte identical
to the original — and the parse error is reported as the only console
message. -/
theorem c2_parse_failure_preserves_file (c : List Char)
    (h : jsonLoads (applyFixes c) = none) :
    runOnContent c = ([Msg.errorMsg PyErr.parseError], c) ∧
      runScript (some c) = RunOutcome.completed [Msg.errorMsg PyErr.parseError] c := by
  have h1 : runOnContent c = ([Msg.errorMsg PyErr.parseError], c) := by
    simp [runOnContent, h]
  exact ⟨h1, by simp [runScript, h1]⟩

/-- Witness for C2 at the concrete unparseable input `"x"`. -/
theorem c2_witness :
    jsonLoads (applyFixes (("x").toList)) = none ∧
      runOnContent (("x").toList) = ([Msg.errorMsg PyErr.parseError], ("x").toList) :=
  ⟨rfl, (c2_parse_failure_preserves_file (("x").toList) rfl).1⟩

/-! ## Claim C3: no partial-write state -/

/-- C3: for every run, either the full normalized serialization of the
parsed value becomes the file content, or the original content is
preserved verbatim — there is no intermediate state. -/
theorem c3_no_partial_write (c : List Char) :
    (∃ v n, jsonLoads (applyFixes c) = some v ∧ pyLen v = some n ∧
      (runOnContent c).2 = jsonDump v 0) ∨ (runOnContent c).2 = c := by
  rcases hj : jsonLoads (applyFixes c) with _ | v
  · right; simp [runOnContent, hj]
  · rcases hp : pyLen v with _ | n
    · right; simp [runOnContent, hj, hp]
    · left; exact ⟨v, n, rfl, hp, by simp [runOnContent, hj, hp]⟩

/-! ## Claim C6 (corrected): the two-terminal-messages guarantee only
holds once the initial read has succeeded -/

/-- C6 counterexample: the initial `open(..., 'r')` sits outside the `try`
block, so a failing read terminates the run with an uncaught exception
(interpreter traceback) and the script prints no message at all — the
console output is not one of the two claimed terminal messages. -/
theorem c6_counterexample :
    runScript none = RunOutcome.uncaughtIOError ∧ isCompleted (runScript none) = false :=
  ⟨rfl, rfl⟩

/-- C6 as amended: once the read has succeeded, every error is caught and the
console output is exactly one of the two shapes — a failure message carrying
the caught error, or the success report (which includes the entry count)
followed by the save confirmation. -/
theorem c6_two_terminal_messages (c : List Char) :
    (∃ e, (runOnContent c).1 = [Msg.errorMsg e]) ∨
      (∃ n, (runOnContent c).1 = [Msg.fixedValidated n, Msg.fileSaved]) := by
  rcases hj : jsonLoads (applyFixes c) with _ | v
  · exact Or.inl ⟨PyErr.parseError, by simp [runOnContent, hj]⟩
  · rcases hp : pyLen v with _ | n
    · exact Or.inl ⟨PyErr.lenTypeError, by simp [runOnContent, hj, hp]⟩
    · exact Or.inr ⟨n, by simp [runOnContent, hj, hp]⟩

/-! ## Claim C7: the reported entry count is the top-level array length -/

/-- C7: whenever the patched text parses to a top-level array, the success
message reports exactly the length of that array. -/
theorem c7_entry_count (c : List Char) (xs : List JsonVal)
    (h : jsonLoads (applyFixes c) = some (JsonVal.arr xs)) :
    (runOnContent c).1 = [Msg.fixedValidated xs.length, Msg.fileSaved] := by
  simp [runOnContent, h, pyLen]

/-- Witness for C7 at the concrete input `"[]"`. -/
theorem c7_witness :
    jsonLoads (applyFixes (("[]").toList)) = some (JsonVal.arr []) ∧
      (runOnContent (("[]").toList)).1 = [Msg.fixedValidated 0, Msg.fileSaved] :=
  ⟨rfl, c7_entry_count (("[]").toList) [] rfl⟩

/-! ## Claim C8: destructive overwrite of the same path with 2-space indent -/

/-- C8: on every successful run the file content becomes the `indent=2`
serialization of the parsed value, the written path is the very path that
was read, and the model contains no other file (no backup). -/
theorem c8_overwrite_with_indent2 (c : List Char) (v : JsonVal) (n : Nat)
    (h1 : jsonLoads (applyFixes c) = some v) (h2 : pyLen v = some n) :
    (runOnContent c).2 = jsonDump v 0 ∧ readPath = writePath ∧ indentW = 2 := by
  refine ⟨?_, rfl, rfl⟩
  simp [runOnContent, h1, h2]

/-- Witness for C8 at the concrete input `"[]"`. -/
theorem c8_witness :
    jsonLoads (applyFixes (("[]").toList)) = some (JsonVal.arr []) ∧
      pyLen (JsonVal.arr []) = some 0 ∧
      (runOnContent (("[]").toList)).2 = jsonDump (JsonVal.arr []) 0 :=
  ⟨rfl, rfl, (c8_overwrite_with_indent2 (("[]").toList) (JsonVal.arr []) 0 rfl rfl).1⟩

/-! ## Claim C10: `len(data)` semantics decide write vs. error -/

/-- C10: when the patched text parses but the top-level value is a number,
boolean or `null`, Python's `len` raises `TypeError`, so the run reports an
error and performs no write even though parsing succeeded; a top-level
object or string is instead reported and written, with its key count or
character count as the entry count. -/
theorem c10_len_semantics (c : List Char) (v : JsonVal)
    (h : jsonLoads (applyFixes c) = some v) :
    (((∃ k, v = JsonVal.num k) ∨ (∃ b, v = JsonVal.bool b) ∨ v = JsonVal.null) →
        runOnContent c = ([Msg.errorMsg PyErr.lenTypeError], c)) ∧
      (∀ m, v = JsonVal.obj m →
        runOnContent c = ([Msg.fixedValidated m.length, Msg.fileSaved], jsonDump v 0)) ∧
      (∀ s, v = JsonVal.str s →
        runOnContent c = ([Msg.fixedValidated s.length, Msg.fileSaved], jsonDump v 0)) := by
  refine ⟨?_, ?_, ?_⟩
  · rintro (⟨k, rfl⟩ | ⟨b, rfl⟩ | rfl) <;> simp [runOnContent, h, pyLen]
  · rintro m rfl; simp [runOnContent, h, pyLen]
  · rintro s rfl; simp [runOnContent, h, pyLen]

/-- Witness for C10 at the concrete input `"5"`: parse succeeds, `len`
fails, nothing is written. -/
theorem c10_witness :
    jsonLoads (applyFixes (("5").toList)) = some (JsonVal.num 5) ∧
      runOnContent (("5").toList) = ([Msg.errorMsg PyErr.lenTypeError], ("5").toList) :=
  ⟨rfl, (c10_len_semantics (("5").toList) (JsonVal.num 5) rfl).1 (Or.inl ⟨5, rfl⟩)⟩

/-! ## Claim C9 (corrected): clean inputs are rewritten only when the
top-level value supports `len` -/

/-- C9 counterexample: `" 5"` parses as valid JSON and contains none of the
nine patterns, yet the script does not overwrite the file with the
re-serialized form — `len(5)` raises before the write, the file keeps its
original content (which differs from the serialization `"5"`), and an error
is reported. -/
theorem c9_counterexample :
    jsonLoads ((" 5").toList) = some (JsonVal.num 5) ∧
      fixes.all (fun pr => !containsSub pr.1 ((" 5").toList)) = true ∧
      runOnContent ((" 5").toList) = ([Msg.errorMsg PyErr.lenTypeError], (" 5").toList) ∧
      jsonDump (JsonVal.num 5) 0 ≠ (" 5").toList := by
  refine ⟨rfl, by decide, rfl, ?_⟩
  intro h
  have : (jsonDump (JsonVal.num 5) 0).length = 2 := by rw [h]; rfl
  simp [jsonDump, intToChars, natToDigits] at this

/-- C9 as amended: an input that already parses as valid JSON and contains
no occurrence of any of the nine patterns is overwritten with the
re-serialized 2-space-indented form — which may differ byte-for-byte from
the original — provided its top-level value supports `len` (array, object
or string); for a `len`-less top-level value no write occurs. -/
theorem c9_rewrite_clean_input (c : List Char) (v : JsonVal) (n : Nat)
    (hno : ∀ pr ∈ fixes, containsSub pr.1 c = false)
    (h1 : jsonLoads c = some v) (h2 : pyLen v = some n) :
    runOnContent c = ([Msg.fixedValidated n, Msg.fileSaved], jsonDump v 0) ∧
      ∃ c0 v0 n0, jsonLoads c0 = some v0 ∧ pyLen v0 = some n0 ∧
        (∀ pr ∈ fixes, containsSub pr.1 c0 = false) ∧ jsonDump v0 0 ≠ c0 := by
  constructor
  · have hfix : applyFixes c = c :=
      applyFixes_id (fun pr hpr => not_occurs_of_containsSub (hno pr hpr))
    simp [runOnContent, hfix, h1, h2]
  · refine ⟨(" []").toList, JsonVal.arr [], 0, rfl, rfl, by decide, ?_⟩
    intro h
    have : (jsonDump (JsonVal.arr []) 0).length = 3 := by rw [h]; rfl
    simp [jsonDump] at this

/-- Witness for the amended C9 at the concrete input `"[ ]"`. -/
theorem c9_witness :
    (∀ pr ∈ fixes, containsSub pr.1 (("[ ]").toList) = false) ∧
      jsonLoads (("[ ]").toList) = some (JsonVal.arr []) ∧
      pyLen (JsonVal.arr []) = some 0 ∧
      runOnContent (("[ ]").toList) = ([Msg.fixedValidated 0, Msg.fileSaved],
        jsonDump (JsonVal.arr []) 0) :=
  ⟨by decide, rfl, rfl,
    (c9_rewrite_clean_input (("[ ]").toList) (JsonVal.arr []) 0 (by decide) rfl rfl).1⟩

/-! ## Claim C4: the patch is ordered, literal, every-occurrence replacement -/

/-- Decomposition of a text at the left-to-right non-overlapping literal
occurrences of `old`, mirroring the `str.replace` scan: the pieces are the
text between (and around) the matches. -/
def splitGo (old : List Char) : Nat → List Char → List (List Char)
  | _, [] => [[]]
  | 0, s => [s]
  | fuel + 1, c :: rest =>
    if old.isPrefixOf (c :: rest) then
      [] :: splitGo old fuel (rest.drop (old.length - 1))
    else
      match splitGo old fuel rest with
      | [] => [[c]]
      | q :: qs => (c :: q) :: qs

/-- `splitGo` at the canonical fuel. -/
def splitSub (old s : List Char) : List (List Char) := splitGo old s.length s

/-- Join pieces with a separator (the inverse of `splitSub`). -/
def joinSep (sep : List Char) : List (List Char) → List Char
  | [] => []
  | [x] => x
  | x :: y :: t => x ++ sep ++ joinSep sep (y :: t)

theorem joinSep_cons_cons (sep : List Char) (c : Char) (q : List Char) (qs : List (List Char)) :
    joinSep sep ((c :: q) :: qs) = c :: joinSep sep (q :: qs) := by
  cases qs with
  | nil => rfl
  | cons y t => simp [joinSep]

theorem joinSep_nil_cons (sep : List Char) (q : List Char) (qs : List (List Char)) :
    joinSep sep ([] :: q :: qs) = sep ++ joinSep sep (q :: qs) := by
  simp [joinSep]

/-- The head piece of a split is a literal prefix of the text. -/
theorem splitGo_shape (old : List Char) :
    ∀ f s, ∃ q qs, splitGo old f s = q :: qs ∧ ∃ u, q ++ u = s := by
  intro f
  induction f with
  | zero =>
    intro s
    cases s with
    | nil => exact ⟨[], [], rfl, [], rfl⟩
    | cons c rest => exact ⟨c :: rest, [], rfl, [], by simp⟩
  | succ f ih =>
    intro s
    cases s with
    | nil => exact ⟨[], [], rfl, [], rfl⟩
    | cons c rest =>
      simp only [splitGo]
      by_cases hp : old.isPrefixOf (c :: rest) = true
      · rw [hp]
        simp only [if_true]
        obtain ⟨q, qs, hsplit, -⟩ := ih (rest.drop (old.length - 1))
        exact ⟨[], splitGo old f (rest.drop (old.length - 1)), rfl, c :: rest, rfl⟩
      · rw [Bool.not_eq_true] at hp
        rw [hp]
        simp only [Bool.false_eq_true, if_false]
        obtain ⟨q, qs, hsplit, u, hu⟩ := ih rest
        rw [hsplit]
        exact ⟨c :: q, qs, rfl, u, by simp [hu]⟩

/-- Joining the pieces with the pattern itself restores the original text. -/
theorem joinSep_splitGo (old : List Char) (hne : old ≠ []) :
    ∀ f s, s.length ≤ f → joinSep old (splitGo old f s) = s := by
  intro f
  induction f with
  | zero =>
    intro s hf
    have : s = [] := List.eq_nil_of_length_eq_zero (Nat.le_zero.mp hf)
    subst this; rfl
  | succ f ih =>
    intro s hf
    cases s with
    | nil => rfl
    | cons c rest =>
      simp only [splitGo]
      by_cases hp : old.isPrefixOf (c :: rest) = true
      · rw [hp]
        simp only [if_true]
        obtain ⟨q, qs, hsplit, -⟩ := splitGo_shape old f (rest.drop (old.length - 1))
        rw [hsplit, joinSep_nil_cons, ← hsplit,
          ih (rest.drop (old.length - 1)) (by simp [List.length_drop] at hf ⊢; omega)]
        obtain ⟨t, ht⟩ := (isPre_iff _ _).mp hp
        obtain ⟨o, os, rfl⟩ : ∃ o os, old = o :: os := by
          cases old with
          | nil => exact absurd rfl hne
          | cons o os => exact ⟨o, os, rfl⟩
        have hdrop : rest.drop ((o :: os).length - 1) = t := by
          have : (o :: os) ++ t = c :: rest := ht.symm
          have h2 : os ++ t = rest := (by simpa using this : o = c ∧ os ++ t = rest).2
          simp [← h2, List.drop_left]
        rw [hdrop, ht]
      · rw [Bool.not_eq_true] at hp
        rw [hp]
        simp only [Bool.false_eq_true, if_false]
        obtain ⟨q, qs, hsplit, -⟩ := splitGo_shape old f rest
        rw [hsplit, joinSep_cons_cons, ← hsplit, ih rest (by simp at hf; omega)]

/-- `str.replace` joins the very same pieces with the replacement. -/
theorem replaceGo_joinSep (old new : List Char) :
    ∀ f s, s.length ≤ f → replaceGo old new f s = joinSep new (splitGo old f s) := by
  intro f
  induction f with
  | zero =>
    intro s hf
    have : s = [] := List.eq_nil_of_length_eq_zero (Nat.le_zero.mp hf)
    subst this; rfl
  | succ f ih =>
    intro s hf
    cases s with
    | nil => rfl
    | cons c rest =>
      simp only [replaceGo, splitGo]
      by_cases hp : old.isPrefixOf (c :: rest) = true
      · rw [hp]
        simp only [if_true]
        obtain ⟨q, qs, hsplit, -⟩ := splitGo_shape old f (rest.drop (old.length - 1))
        rw [hsplit, joinSep_nil_cons, ← hsplit,
          ih (rest.drop (old.length - 1)) (by simp [List.length_drop] at hf ⊢; omega)]
      · rw [Bool.not_eq_true] at hp
        rw [hp]
        simp only [Bool.false_eq_true, if_false]
        obtain ⟨q, qs, hsplit, -⟩ := splitGo_shape old f rest
        rw [hsplit, joinSep_cons_cons, ← hsplit, ih rest (by simp at hf; omega)]

theorem isPre_of_isPre_append {p a : List Char} (u : List Char)
    (h : p.isPrefixOf a = true) : p.isPrefixOf (a ++ u) = true := by
  obtain ⟨t, rfl⟩ := (isPre_iff _ _).mp h
  exact (isPre_iff _ _).mpr ⟨t ++ u, by simp⟩

/-- No piece of the split contains a further occurrence of the pattern. -/
theorem splitGo_pieces_clean (old : List Char) (hne : old ≠ []) :
    ∀ f s, s.length ≤ f → ∀ x ∈ splitGo old f s, containsSub old x = false := by
  have hnil : containsSub old [] = false := by
    obtain ⟨o, os, rfl⟩ : ∃ o os, old = o :: os := by
      cases old with
      | nil => exact absurd rfl hne
      | cons o os => exact ⟨o, os, rfl⟩
    rfl
  intro f
  induction f with
  | zero =>
    intro s hf
    have : s = [] := List.eq_nil_of_length_eq_zero (Nat.le_zero.mp hf)
    subst this
    intro x hx
    simp only [splitGo, List.mem_singleton] at hx
    subst hx; exact hnil
  | succ f ih =>
    intro s hf x hx
    cases s with
    | nil =>
      simp only [splitGo, List.mem_singleton] at hx
      subst hx; exact hnil
    | cons c rest =>
      simp only [splitGo] at hx
      by_cases hp : old.isPrefixOf (c :: rest) = true
      · rw [hp] at hx
        simp only [if_true, List.mem_cons] at hx
        rcases hx with rfl | hx
        · exact hnil
        · exact ih (rest.drop (old.length - 1)) (by simp [List.length_drop] at hf ⊢; omega) x hx
      · rw [Bool.not_eq_true] at hp
        rw [hp] at hx
        simp only [Bool.false_eq_true, if_false] at hx
        obtain ⟨q, qs, hsplit, u, hu⟩ := splitGo_shape old f rest
        rw [hsplit, List.mem_cons] at hx
        have hrest : rest.length ≤ f := by simp at hf; omega
        rcases hx with rfl | hx
        · show (old.isPrefixOf (c :: q) || containsSub old q) = false
          have h1 : containsSub old q = false :=
            ih rest hrest q (by rw [hsplit]; simp)
          have h2 : old.isPrefixOf (c :: q) = false := by
            rw [Bool.eq_false_iff]
            intro habs
            have : old.isPrefixOf ((c :: q) ++ u) = true := isPre_of_isPre_append u habs
            rw [show (c :: q) ++ u = c :: rest by simp [hu]] at this
            exact absurd this (by simp [hp])
          simp [h1, h2]
        · exact ih rest hrest x (by rw [hsplit]; simp [hx])

/-- C4: the patch step folds the nine `(pattern, replacement)` pairs over the
text in their listed order, and each step is literal every-occurrence
substitution: the text decomposes into pieces free of the pattern,
interleaved with exact pattern matches (including the embedded newline each
pattern carries), and the result interleaves the same pieces with the
replacement — no pattern-matching interpretation of any kind. -/
theorem c4_literal_ordered_patch (old new s : List Char) (h : old ≠ []) :
    strReplace old new s = joinSep new (splitSub old s) ∧
      joinSep old (splitSub old s) = s ∧
      (∀ x ∈ splitSub old s, containsSub old x = false) ∧
      applyFixes s = fixes.foldl (fun t pr => strReplace pr.1 pr.2 t) s ∧
      fixes.length = 9 ∧
      (∀ pr ∈ fixes, '\n' ∈ pr.1) := by
  refine ⟨?_, joinSep_splitGo old h s.length s (Nat.le_refl _),
    splitGo_pieces_clean old h s.length s (Nat.le_refl _), rfl, rfl, by decide⟩
  obtain ⟨o, os, rfl⟩ : ∃ o os, old = o :: os := by
    cases old with
    | nil => exact absurd rfl h
    | cons o os => exact ⟨o, os, rfl⟩
  exact replaceGo_joinSep (o :: os) new s.length s (Nat.le_refl _)

/-- Witness for C4 at a concrete rule and text. -/
theorem c4_witness :
    (('a' :: []) : List Char) ≠ [] ∧
      strReplace ('a' :: []) ('b' :: 'c' :: []) (("xay").toList)
          = joinSep ('b' :: 'c' :: []) (splitSub ('a' :: []) (("xay").toList)) ∧
      joinSep ('a' :: []) (splitSub ('a' :: []) (("xay").toList)) = ("xay").toList ∧
      (∀ x ∈ splitSub ('a' :: []) (("xay").toList), containsSub ('a' :: []) x = false) ∧
      applyFixes (("xay").toList)
          = fixes.foldl (fun t pr => strReplace pr.1 pr.2 t) (("xay").toList) ∧
      fixes.length = 9 ∧
      (∀ pr ∈ fixes, '\n' ∈ pr.1) :=
  ⟨by decide, c4_literal_ordered_patch ('a' :: []) ('b' :: 'c' :: []) (("xay").toList) (by decide)⟩

/-! ## Claim C1: corruption decompositions and the repair theorem

The premise "every corrupted substring exactly matches one of the nine
rules" is formalised structurally: the input splits into segments — clean
text shared with the repaired file, and corruption sites carrying the
pattern of some rule — such that the repaired file (every site showing its
replacement) parses and contains no residual pattern occurrence. -/

/-- One segment of a corruption decomposition. -/
inductive Seg where
  | txt : List Char → Seg
  | bad : Nat → Seg
deriving DecidableEq

/-- Render a segment in the state where the rules below `m` have been
applied: sites of those rules show the replacement, later sites still show
the pattern. -/
def segAt (m : Nat) : Seg → List Char
  | .txt s => s
  | .bad i => if i < m then repAt i else patAt i

/-- The whole text in the state where the rules below `m` have been applied:
`textAt 0` is the corrupted input, `textAt 9` the repaired file. -/
def textAt (m : Nat) (segs : List Seg) : List Char := (segs.map (segAt m)).flatten

/-- All corruption sites refer to one of the nine rules. -/
def SegsOK (segs : List Seg) : Prop := ∀ i, Seg.bad i ∈ segs → i < 9

theorem textAt_nil (m : Nat) : textAt m [] = [] := rfl

theorem textAt_cons (m : Nat) (g : Seg) (segs : List Seg) :
    textAt m (g :: segs) = segAt m g ++ textAt m segs := by
  simp [textAt]

/-- Interior of the `i`-th pattern: between the opening quote and the
trailing newline. -/
def patMid (i : Nat) : List Char := ((patAt i).drop 1).dropLast

/-- Interior of the `i`-th replacement: between the two quotes. -/
def repMid (i : Nat) : List Char := ((repAt i).drop 1).dropLast

theorem pat_shape : ∀ i, i < 9 → patAt i = '"' :: (patMid i ++ ['\n']) := by decide

theorem rep_shape : ∀ i, i < 9 → repAt i = '"' :: (repMid i ++ ['"']) := by decide

theorem patMid_clean : ∀ i, i < 9 → ∀ c ∈ patMid i, c ≠ '"' ∧ c ≠ '\n' := by decide

theorem repMid_clean : ∀ i, i < 9 → ∀ c ∈ repMid i, c ≠ '"' := by decide

theorem repMid_no_nl : ∀ i, i < 9 → ∀ c ∈ repMid i, c ≠ '\n' := by decide

theorem patMid_inj : ∀ i, i < 9 → ∀ j, j < 9 → patMid i = patMid j → i = j := by decide

/-- Two decompositions around a marker character that occurs in neither
left part must agree. -/
theorem marker_eq {x y : Char} :
    ∀ {a b u w : List Char}, a ++ x :: u = b ++ y :: w → x ∉ b → y ∉ a →
      a = b ∧ x = y ∧ u = w := by
  intro a
  induction a with
  | nil =>
    intro b u w h hxb hya
    cases b with
    | nil =>
      simp only [List.nil_append, List.cons.injEq] at h
      exact ⟨rfl, h.1, h.2⟩
    | cons d b' =>
      simp only [List.nil_append, List.cons_append, List.cons.injEq] at h
      exact absurd (h.1 ▸ List.mem_cons_self d b') hxb
  | cons c a' ih =>
    intro b u w h hxb hya
    cases b with
    | nil =>
      simp only [List.cons_append, List.nil_append, List.cons.injEq] at h
      refine absurd ?_ hya
      rw [← h.1]
      exact List.mem_cons_self c a'
    | cons d b' =>
      simp only [List.cons_append, List.cons.injEq] at h
      obtain ⟨rfl, h2⟩ := h
      obtain ⟨rfl, hxy, rfl⟩ := ih h2 (fun hm => hxb (List.mem_cons_of_mem _ hm))
        (fun hm => hya (List.mem_cons_of_mem _ hm))
      exact ⟨rfl, hxy, rfl⟩

/-- A quote-free prefix of a partially repaired suffix is also a prefix of
the fully repaired suffix: the two differ only at corruption sites, which
all begin with a quote. -/
theorem quoteFreePre (m : Nat) :
    ∀ (segs : List Seg), SegsOK segs → ∀ e u, (∀ c ∈ e, c ≠ '"') →
      e ++ u = textAt m segs → ∃ w, e ++ w = textAt 9 segs := by
  intro segs
  induction segs with
  | nil =>
    intro _ e u hq h
    rw [textAt_nil] at h ⊢
    have he : e = [] := by
      cases e with
      | nil => rfl
      | cons c t => simp at h
    subst he
    exact ⟨[], rfl⟩
  | cons g rest ih =>
    intro hok e u hq h
    have hokRest : SegsOK rest := fun i hi => hok i (List.mem_cons_of_mem _ hi)
    rw [textAt_cons] at h
    cases g with
    | txt s =>
      rw [show segAt m (Seg.txt s) = s from rfl] at h
      rcases List.append_eq_append_iff.mp h with ⟨a', ha1, ha2⟩ | ⟨c', hc1, hc2⟩
      · refine ⟨a' ++ textAt 9 rest, ?_⟩
        rw [textAt_cons, show segAt 9 (Seg.txt s) = s from rfl]
        rw [← List.append_assoc, ← ha1]
      · obtain ⟨w, hw⟩ := ih hokRest c' u
          (fun c hc => hq c (hc1 ▸ List.mem_append_right s hc)) hc2.symm
        refine ⟨w, ?_⟩
        rw [textAt_cons, show segAt 9 (Seg.txt s) = s from rfl]
        rw [hc1, List.append_assoc, hw]
    | bad i =>
      have hi9 : i < 9 := hok i (List.mem_cons_self _ _)
      have hquote : ∃ z, segAt m (Seg.bad i) = '"' :: z := by
        show ∃ z, (if i < m then repAt i else patAt i) = '"' :: z
        by_cases him : i < m
        · rw [if_pos him, rep_shape i hi9]; exact ⟨_, rfl⟩
        · rw [if_neg him, pat_shape i hi9]; exact ⟨_, rfl⟩
      obtain ⟨z, hz⟩ := hquote
      cases e with
      | nil => exact ⟨textAt 9 (Seg.bad i :: rest), rfl⟩
      | cons c e' =>
        rw [hz] at h
        simp only [List.cons_append, List.cons.injEq] at h
        exact absurd h.1 (hq c (List.mem_cons_self _ _))

theorem drop_cons_ne_nil {l : List Char} {k : Nat} (hk : k < l.length) :
    ∃ c t, l.drop k = c :: t := by
  cases hd : l.drop k with
  | nil =>
    have := List.length_drop k l
    rw [hd] at this
    simp at this
    omega
  | cons c t => exact ⟨c, t, rfl⟩

theorem exists_head_drop_mem (b z : List Char) (j : Nat) (hj : j < b.length) :
    ∃ c t, (b ++ z).drop j = c :: t ∧ c ∈ b := by
  rw [List.drop_append_of_le_length (le_of_lt hj)]
  obtain ⟨c, t, hct⟩ := drop_cons_ne_nil hj
  refine ⟨c, t ++ z, by rw [hct]; rfl, ?_⟩
  have : c ∈ b.drop j := hct ▸ List.mem_cons_self c t
  exact List.drop_subset j b this

theorem head_eq_of_isPre {p' : List Char} {x c : Char} {t : List Char}
    (h : (x :: p').isPrefixOf (c :: t) = true) : x = c := by
  obtain ⟨u, hu⟩ := (isPre_iff _ _).mp h
  simp only [List.cons_append, List.cons.injEq] at hu
  exact hu.1.symm

/-- No occurrence of the current pattern starts inside a clean segment. -/
theorem noOcc_txt (m : Nat) (hm : m < 9) (s : List Char) (rest : List Seg)
    (hok : SegsOK rest)
    (hno : ¬ Occurs (patAt m) (s ++ textAt 9 rest)) :
    ∀ k, k < s.length → (patAt m).isPrefixOf ((s ++ textAt m rest).drop k) = false := by
  intro k hk
  rw [Bool.eq_false_iff]
  intro hpre
  rw [List.drop_append_of_le_length (le_of_lt hk)] at hpre
  obtain ⟨u, hu⟩ := (isPre_iff _ _).mp hpre
  rcases List.append_eq_append_iff.mp hu with ⟨a', ha1, ha2⟩ | ⟨c', hc1, hc2⟩
  · rcases a' with _ | ⟨a0, a''⟩
    · -- patAt m = s.drop k: occurrence inside s
      rw [List.append_nil] at ha1
      refine hno (occurs_append_left ⟨s.take k, [], ?_⟩ (textAt 9 rest))
      rw [List.append_nil, ha1, List.take_append_drop]
    · -- patAt m = s.drop k ++ nonempty tail, tail a quote-free prefix of the suffix
      obtain ⟨c0, ss, hss⟩ := drop_cons_ne_nil hk
      have hq : ∀ c ∈ a0 :: a'', c ≠ '"' := by
        intro c hc hcq
        have hshape := pat_shape m hm
        rw [hss] at ha1
        rw [hshape] at ha1
        simp only [List.cons_append, List.cons.injEq] at ha1
        have : c ∈ patMid m ++ ['\n'] := by
          rw [ha1.2]
          exact List.mem_append_right ss hc
        rcases List.mem_append.mp this with hmem | hmem
        · exact (patMid_clean m hm c hmem).1 (by rw [hcq])
        · simp at hmem
          rw [hcq] at hmem
          exact absurd hmem (by decide)
      obtain ⟨w, hw⟩ := quoteFreePre m rest hok (a0 :: a'') u hq ha2.symm
      refine hno ⟨s.take k, w, ?_⟩
      have h1 : s = s.take k ++ s.drop k := (List.take_append_drop k s).symm
      conv_lhs => rw [h1, ← hw]
      rw [ha1]
      simp only [List.append_assoc, List.cons_append]
  · -- patAt m fits inside s starting at k
    refine hno (occurs_append_left ⟨s.take k, c', ?_⟩ (textAt 9 rest))
    rw [List.append_assoc, ← hc1, List.take_append_drop]

/-- No occurrence of the current pattern starts inside the corruption site
of a different rule. -/
theorem noOcc_patSeg (m i : Nat) (hm : m < 9) (hi : i < 9) (hne : i ≠ m)
    (rest : List Seg) :
    ∀ k, k < (patAt i).length →
      (patAt m).isPrefixOf ((patAt i ++ textAt m rest).drop k) = false := by
  intro k hk
  rw [Bool.eq_false_iff]
  intro hpre
  rcases Nat.eq_zero_or_pos k with rfl | hkpos
  · rw [List.drop_zero] at hpre
    obtain ⟨u, hu⟩ := (isPre_iff _ _).mp hpre
    rw [pat_shape i hi, pat_shape m hm] at hu
    simp only [List.cons_append, List.cons.injEq, List.append_assoc, List.singleton_append]
      at hu
    have := marker_eq hu.2 (fun hmem => (patMid_clean m hm '\n' hmem).2 rfl)
      (fun hmem => (patMid_clean i hi '\n' hmem).2 rfl)
    exact hne (patMid_inj i hi m hm this.1)
  · obtain ⟨k', rfl⟩ : ∃ k', k = k' + 1 := ⟨k - 1, by omega⟩
    rw [pat_shape i hi] at hpre hk
    rw [List.cons_append, List.drop_succ_cons] at hpre
    have hk' : k' < (patMid i ++ ['\n']).length := by
      simp at hk ⊢
      omega
    obtain ⟨c, t, hct, hmem⟩ := exists_head_drop_mem (patMid i ++ ['\n']) (textAt m rest) k' hk'
    rw [hct] at hpre
    rw [pat_shape m hm] at hpre
    have hcq := head_eq_of_isPre hpre
    rcases List.mem_append.mp hmem with hmm | hmm
    · exact (patMid_clean i hi c hmm).1 hcq.symm
    · simp at hmm
      rw [← hcq] at hmm
      exact absurd hmm (by decide)

/-- No occurrence of the current pattern starts inside an already applied
replacement. -/
theorem noOcc_repSeg (m i : Nat) (hm : m < 9) (hi : i < 9)
    (rest : List Seg) (hok : SegsOK rest)
    (hno : ¬ Occurs (patAt m) (repAt i ++ textAt 9 rest)) :
    ∀ k, k < (repAt i).length →
      (patAt m).isPrefixOf ((repAt i ++ textAt m rest).drop k) = false := by
  have hlen : (repAt i).length = (repMid i).length + 2 := by
    rw [rep_shape i hi]; simp
  intro k hk
  rw [Bool.eq_false_iff]
  intro hpre
  rcases Nat.eq_zero_or_pos k with rfl | hkpos
  · rw [List.drop_zero] at hpre
    obtain ⟨u, hu⟩ := (isPre_iff _ _).mp hpre
    rw [rep_shape i hi, pat_shape m hm] at hu
    simp only [List.cons_append, List.cons.injEq, List.append_assoc, List.singleton_append]
      at hu
    have := marker_eq hu.2 (fun hmem => (patMid_clean m hm '"' hmem).1 rfl)
      (fun hmem => repMid_no_nl i hi '\n' hmem rfl)
    exact absurd this.2.1 (by decide)
  · obtain ⟨k', rfl⟩ : ∃ k', k = k' + 1 := ⟨k - 1, by omega⟩
    rw [rep_shape i hi] at hpre
    rw [List.cons_append, List.drop_succ_cons] at hpre
    rcases Nat.lt_or_ge k' (repMid i).length with hk' | hk'
    · -- interior of the replacement: only non-quote characters
      rw [List.append_assoc, List.singleton_append] at hpre
      obtain ⟨c, t, hct, hmem⟩ :=
        exists_head_drop_mem (repMid i) ('"' :: textAt m rest) k' hk'
      rw [hct] at hpre
      rw [pat_shape m hm] at hpre
      exact repMid_clean i hi c hmem (head_eq_of_isPre hpre).symm
    · -- the closing quote of the replacement
      have hkeq : k' = (repMid i).length := by
        rw [hlen] at hk
        omega
      subst hkeq
      rw [List.drop_append_of_le_length (by simp), List.drop_left] at hpre
      rw [List.singleton_append] at hpre
      obtain ⟨u, hu⟩ := (isPre_iff _ _).mp hpre
      rw [pat_shape m hm] at hu
      simp only [List.cons_append, List.cons.injEq] at hu
      have hq : ∀ c ∈ patMid m ++ ['\n'], c ≠ '"' := by
        intro c hc
        rcases List.mem_append.mp hc with hmm | hmm
        · exact (patMid_clean m hm c hmm).1
        · simp at hmm
          rw [hmm]
          decide
      obtain ⟨w, hw⟩ := quoteFreePre m rest hok (patMid m ++ ['\n']) u hq hu.2.symm
      refine hno ⟨'"' :: repMid i, w, ?_⟩
      rw [rep_shape i hi, pat_shape m hm]
      rw [← hw]
      simp

/-- Applying rule `m` to the text with the rules below `m` already applied
replaces exactly the designated sites of rule `m`. -/
theorem step_replace (m : Nat) (hm : m < 9) :
    ∀ segs : List Seg, SegsOK segs → ¬ Occurs (patAt m) (textAt 9 segs) →
      strReplace (patAt m) (repAt m) (textAt m segs) = textAt (m + 1) segs := by
  have hpne : patAt m ≠ [] := by rw [pat_shape m hm]; simp
  intro segs
  induction segs with
  | nil =>
    intro _ _
    rw [textAt_nil, textAt_nil]
    refine strReplace_id _ hpne [] ?_
    rintro ⟨a, b, h⟩
    have h2 := h.symm
    simp only [List.append_eq_nil, List.append_assoc] at h2
    exact hpne h2.2.1
  | cons g rest ih =>
    intro hok hno
    have hokRest : SegsOK rest := fun i hi => hok i (List.mem_cons_of_mem _ hi)
    have hnoRest : ¬ Occurs (patAt m) (textAt 9 rest) := fun h => by
      refine hno ?_
      rw [textAt_cons]
      exact occurs_append_right _ h
    have hnoHead : ¬ Occurs (patAt m) (segAt 9 g ++ textAt 9 rest) := fun h => by
      refine hno ?_
      rw [textAt_cons]
      exact h
    rw [textAt_cons, textAt_cons]
    cases g with
    | txt s =>
      rw [show segAt m (Seg.txt s) = s from rfl, show segAt (m + 1) (Seg.txt s) = s from rfl]
      rw [strReplace_skip (repAt m) hpne s (textAt m rest)
        (noOcc_txt m hm s rest hokRest hnoHead)]
      rw [ih hokRest hnoRest]
    | bad i =>
      have hi9 : i < 9 := hok i (List.mem_cons_self _ _)
      have hseg9 : segAt 9 (Seg.bad i) = repAt i := by simp [segAt, hi9]
      rw [hseg9] at hnoHead
      by_cases him : i < m
      · rw [show segAt m (Seg.bad i) = repAt i by simp [segAt, him],
          show segAt (m + 1) (Seg.bad i) = repAt i by simp [segAt, Nat.lt_succ_of_lt him]]
        rw [strReplace_skip (repAt m) hpne (repAt i) (textAt m rest)
          (noOcc_repSeg m i hm hi9 rest hokRest hnoHead)]
        rw [ih hokRest hnoRest]
      · by_cases heq : i = m
        · subst heq
          rw [show segAt i (Seg.bad i) = patAt i by simp [segAt],
            show segAt (i + 1) (Seg.bad i) = repAt i by simp [segAt]]
          rw [strReplace_match (repAt i) hpne (textAt i rest)]
          rw [ih hokRest hnoRest]
        · have him1 : ¬ i < m + 1 := by omega
          rw [show segAt m (Seg.bad i) = patAt i by simp [segAt, him],
            show segAt (m + 1) (Seg.bad i) = patAt i by simp [segAt, him1]]
          rw [strReplace_skip (repAt m) hpne (patAt i) (textAt m rest)
            (noOcc_patSeg m i hm hi9 heq rest)]
          rw [ih hokRest hnoRest]

theorem fixes_drop_cons : ∀ m, m < 9 →
    fixes.drop m = (patAt m, repAt m) :: fixes.drop (m + 1) := by decide

theorem fixes_drop_nine : fixes.drop 9 = [] := by decide

/-- Folding the remaining rules over a partially repaired text completes
the repair. -/
theorem chainAux (segs : List Seg) (hok : SegsOK segs)
    (hno : ∀ i, i < 9 → ¬ Occurs (patAt i) (textAt 9 segs)) :
    ∀ n m, m + n = 9 →
      (fixes.drop m).foldl (fun t pr => strReplace pr.1 pr.2 t) (textAt m segs)
        = textAt 9 segs := by
  intro n
  induction n with
  | zero =>
    intro m hm9
    have : m = 9 := by omega
    subst this
    rw [fixes_drop_nine]
    rfl
  | succ n ih =>
    intro m hm9
    have hm : m < 9 := by omega
    rw [fixes_drop_cons m hm]
    simp only [List.foldl_cons]
    rw [step_replace m hm segs hok (hno m hm)]
    exact ih (m + 1) (by omega)

/-- C1: for every input whose corruptions are exactly sites matching the
nine rules — formalised as a segment decomposition whose fully repaired
rendering parses as JSON and retains no pattern occurrence — the text
obtained after applying all nine replacements parses successfully. -/
theorem c1_patched_text_parses (segs : List Seg) (hok : SegsOK segs)
    (hparse : (jsonLoads (textAt 9 segs)).isSome = true)
    (hno : ∀ i, i < 9 → ¬ Occurs (patAt i) (textAt 9 segs)) :
    (jsonLoads (applyFixes (textAt 0 segs))).isSome = true := by
  have h : applyFixes (textAt 0 segs) = textAt 9 segs := chainAux segs hok hno 9 0 rfl
  rw [h]
  exact hparse

/-- Concrete decomposition for the C1 witness: `["CAPITAL LIGHTING FIXTURE C\n]`
with the single corruption site of rule 0. -/
def c1WitnessSegs : List Seg := [Seg.txt (("[").toList), Seg.bad 0, Seg.txt (("]").toList)]

/-- Witness for C1: the concrete corrupted array repairs to
`["CAPITAL LIGHTING FIXTURE COMPANY"]`, which parses. -/
theorem c1_witness :
    SegsOK c1WitnessSegs ∧
      (jsonLoads (textAt 9 c1WitnessSegs)).isSome = true ∧
      (∀ i, i < 9 → ¬ Occurs (patAt i) (textAt 9 c1WitnessSegs)) ∧
      (jsonLoads (applyFixes (textAt 0 c1WitnessSegs))).isSome = true := by
  have hok : SegsOK c1WitnessSegs := by
    intro i hi
    simp [c1WitnessSegs] at hi
    omega
  have hcs : ∀ i, i < 9 → containsSub (patAt i) (textAt 9 c1WitnessSegs) = false := by decide
  have hno : ∀ i, i < 9 → ¬ Occurs (patAt i) (textAt 9 c1WitnessSegs) :=
    fun i hi => not_occurs_of_containsSub (hcs i hi)
  have hparse : (jsonLoads (textAt 9 c1WitnessSegs)).isSome = true := rfl
  exact ⟨hok, hparse, hno, c1_patched_text_parses c1WitnessSegs hok hparse hno⟩

/-! ## Character arithmetic toolkit -/

theorem char_eq_of_toNat {a b : Char} (h : a.toNat = b.toNat) : a = b :=
  Char.ext (UInt32.ext h)

theorem char_toNat_valid (c : Char) :
    c.toNat < 0xd800 ∨ (0xdfff < c.toNat ∧ c.toNat < 0x110000) := c.valid

theorem toNat_ofNat_valid {n : Nat} (h : Nat.isValidChar n) : (Char.ofNat n).toNat = n := by
  simp [Char.ofNat, Char.toNat, h, Char.ofNatAux, UInt32.ofNat', UInt32.toNat]

theorem char_ne_of_toNat {c d : Char} (h : c.toNat ≠ d.toNat) : c ≠ d :=
  fun he => h (by rw [he])

theorem isDigitC_iff {c : Char} : isDigitC c = true ↔ 48 ≤ c.toNat ∧ c.toNat ≤ 57 := by
  simp [isDigitC, Char.le_def, UInt32.le_def, BitVec.le_def, Char.toNat, UInt32.toNat]

/-! ## Decimal digits round-trip -/

theorem digit_facts : ∀ n, n < 10 →
    isDigitC (Char.ofNat ('0'.toNat + n)) = true ∧ digitVal (Char.ofNat ('0'.toNat + n)) = n ∧
      (1 ≤ n → Char.ofNat ('0'.toNat + n) ≠ '0') := by decide

theorem natToDigits_cons :
    ∀ n, ∃ c t, natToDigits n = c :: t ∧ isDigitC c = true ∧ (1 ≤ n → c ≠ '0') := by
  intro n
  induction n using Nat.strong_induction_on with
  | _ n ih =>
    rw [natToDigits]
    by_cases h : n < 10
    · rw [if_pos h]
      exact ⟨_, [], rfl, (digit_facts n h).1, fun h1 => (digit_facts n h).2.2 h1⟩
    · rw [if_neg h]
      obtain ⟨c, t, hct, hd, h0⟩ := ih (n / 10) (Nat.div_lt_self (by omega) (by omega))
      exact ⟨c, t ++ [Char.ofNat ('0'.toNat + n % 10)], by rw [hct]; rfl, hd,
        fun _ => h0 (by omega)⟩

theorem natToDigits_all_digits : ∀ n, ∀ c ∈ natToDigits n, isDigitC c = true := by
  intro n
  induction n using Nat.strong_induction_on with
  | _ n ih =>
    intro c hc
    rw [natToDigits] at hc
    by_cases h : n < 10
    · rw [if_pos h] at hc
      simp only [List.mem_singleton] at hc
      subst hc
      exact (digit_facts n h).1
    · rw [if_neg h] at hc
      rcases List.mem_append.mp hc with hm | hm
      · exact ih (n / 10) (Nat.div_lt_self (by omega) (by omega)) c hm
      · simp only [List.mem_singleton] at hm
        subst hm
        exact (digit_facts (n % 10) (by omega)).1

theorem digitsToNat_append_last (a : List Char) (d : Char) :
    digitsToNat (a ++ [d]) = digitsToNat a * 10 + digitVal d := by
  simp [digitsToNat, List.foldl_append]

theorem digitsToNat_natToDigits : ∀ n, digitsToNat (natToDigits n) = n := by
  intro n
  induction n using Nat.strong_induction_on with
  | _ n ih =>
    rw [natToDigits]
    by_cases h : n < 10
    · rw [if_pos h]
      show digitsToNat [Char.ofNat ('0'.toNat + n)] = n
      have hd := (digit_facts n h).2.1
      simp only [digitsToNat, List.foldl_cons, List.foldl_nil, Nat.zero_mul, Nat.zero_add]
      exact hd
    · rw [if_neg h]
      rw [digitsToNat_append_last, ih (n / 10) (Nat.div_lt_self (by omega) (by omega)),
        (digit_facts (n % 10) (by omega)).2.1]
      omega

theorem takeWhile_append_all {p : Char → Bool} :
    ∀ (a r : List Char), (∀ c ∈ a, p c = true) →
      (a ++ r).takeWhile p = a ++ r.takeWhile p := by
  intro a
  induction a with
  | nil => intro r _; rfl
  | cons c t ih =>
    intro r h
    rw [List.cons_append, List.takeWhile_cons, if_pos (h c (List.mem_cons_self _ _)),
      ih r (fun d hd => h d (List.mem_cons_of_mem _ hd))]
    rfl

theorem dropWhile_append_all {p : Char → Bool} :
    ∀ (a r : List Char), (∀ c ∈ a, p c = true) →
      (a ++ r).dropWhile p = r.dropWhile p := by
  intro a
  induction a with
  | nil => intro r _; rfl
  | cons c t ih =>
    intro r h
    rw [List.cons_append, List.dropWhile_cons, if_pos (h c (List.mem_cons_self _ _)),
      ih r (fun d hd => h d (List.mem_cons_of_mem _ hd))]

/-- Tokens that may legitimately follow a serialized value inside the
indenting encoder's output: nothing, a comma, or a newline. -/
def sepOK : List Char → Bool
  | [] => true
  | c :: _ => c = ',' || c = '\n'

theorem sepOK_not_digit {r : List Char} (h : sepOK r = true) : r.takeWhile isDigitC = [] := by
  cases r with
  | nil => rfl
  | cons c t =>
    simp only [sepOK, Bool.or_eq_true, decide_eq_true_eq] at h
    have : isDigitC c = false := by
      rcases h with rfl | rfl <;> decide
    rw [List.takeWhile_cons, this]
    simp

theorem sepOK_dropWhile {r : List Char} (h : sepOK r = true) : r.dropWhile isDigitC = r := by
  cases r with
  | nil => rfl
  | cons c t =>
    simp only [sepOK, Bool.or_eq_true, decide_eq_true_eq] at h
    have : isDigitC c = false := by
      rcases h with rfl | rfl <;> decide
    rw [List.dropWhile_cons, this]
    simp

theorem sepOK_not_float {r : List Char} (h : sepOK r = true) : floatFollow r = false := by
  cases r with
  | nil => rfl
  | cons c t =>
    simp only [sepOK, Bool.or_eq_true, decide_eq_true_eq] at h
    rcases h with rfl | rfl <;> rfl

/-- Parsing the decimal rendering of `n` recovers `n` and the suffix. -/
theorem parseNatTok_digits (n : Nat) (r : List Char) (hr : sepOK r = true) :
    parseNatTok (natToDigits n ++ r) = some (n, r) := by
  rcases Nat.eq_zero_or_pos n with rfl | hn
  · rw [show natToDigits 0 = ['0'] by rw [natToDigits]; decide]
    rfl
  · obtain ⟨c, t, hct, hd, h0⟩ := natToDigits_cons n
    rw [hct, List.cons_append]
    show parseNatTok (c :: (t ++ r)) = some (n, r)
    rw [parseNatTok]
    rw [if_neg (h0 hn), if_pos hd]
    have hall : ∀ d ∈ natToDigits n, isDigitC d = true := natToDigits_all_digits n
    rw [hct] at hall
    have htake : (c :: (t ++ r)).takeWhile isDigitC = (c :: t) ++ r.takeWhile isDigitC := by
      rw [show c :: (t ++ r) = (c :: t) ++ r from rfl]
      exact takeWhile_append_all (c :: t) r hall
    have hdrop : (c :: (t ++ r)).dropWhile isDigitC = r.dropWhile isDigitC := by
      rw [show c :: (t ++ r) = (c :: t) ++ r from rfl]
      exact dropWhile_append_all (c :: t) r hall
    rw [htake, hdrop, sepOK_not_digit hr, sepOK_dropWhile hr, List.append_nil, ← hct,
      digitsToNat_natToDigits]

theorem natToDigits_head_ne_minus (n : Nat) :
    ∀ c t, natToDigits n = c :: t → c ≠ '-' := by
  intro c t hct
  have hd : isDigitC c = true := natToDigits_all_digits n c (by rw [hct]; simp)
  have := isDigitC_iff.mp hd
  exact char_ne_of_toNat (by change _ ≠ 45; omega)

/-- Parsing the decimal rendering of an integer recovers it. -/
theorem parseIntTok_intToChars (k : Int) (r : List Char) (hr : sepOK r = true) :
    parseIntTok (intToChars k ++ r) = some (k, r) := by
  cases k with
  | ofNat n =>
    show parseIntTok (natToDigits n ++ r) = some ((n : Int), r)
    obtain ⟨c, t, hct, -, -⟩ := natToDigits_cons n
    rw [hct, List.cons_append, parseIntTok,
      if_neg (natToDigits_head_ne_minus n c t hct), ← List.cons_append, ← hct,
      parseNatTok_digits n r hr]
    simp [sepOK_not_float hr]
  | negSucc m =>
    show parseIntTok ('-' :: (natToDigits (m + 1) ++ r)) = some (Int.negSucc m, r)
    rw [parseIntTok, if_pos rfl, parseNatTok_digits (m + 1) r hr]
    simp [sepOK_not_float hr, Int.negSucc_eq]

/-! ## String escape round-trip -/

theorem hex_rt : ∀ k, k < 16 → hexVal (hexDig k) = some k := by decide

theorem parseHex4_uEsc (n : Nat) (hn : n < 65536) (r : List Char) :
    parseHex4 (hexDig (n / 4096 % 16) :: hexDig (n / 256 % 16) :: hexDig (n / 16 % 16) ::
      hexDig (n % 16) :: r) = some (n, r) := by
  simp only [parseHex4, hex_rt _ (Nat.mod_lt _ (by omega)),
    hex_rt (n / 4096 % 16) (Nat.mod_lt _ (by omega))]
  have : n / 4096 % 16 * 4096 + n / 256 % 16 * 256 + n / 16 % 16 * 16 + n % 16 = n := by
    omega
  rw [this]

theorem parseStrGo_cons_plain (f : Nat) (c : Char) (rest : List Char)
    (h1 : c ≠ '"') (h2 : c ≠ '\\') (h3 : ¬ c.toNat < 0x20) :
    parseStrGo (f + 1) (c :: rest) = (parseStrGo f rest).map (fun p => (c :: p.1, p.2)) := by
  simp only [parseStrGo]
  rw [if_neg h1, if_neg h2, if_neg h3]

theorem uEsc_cons (n : Nat) :
    uEsc n = '\\' :: 'u' :: hexDig (n / 4096 % 16) :: hexDig (n / 256 % 16) ::
      hexDig (n / 16 % 16) :: hexDig (n % 16) :: [] := rfl

theorem parseStrGo_unicode (f n : Nat) (hn : n < 65536)
    (hlow : ¬ (0xd800 ≤ n ∧ n ≤ 0xdfff)) (rest : List Char) :
    parseStrGo (f + 1) ('\\' :: 'u' :: hexDig (n / 4096 % 16) :: hexDig (n / 256 % 16) ::
        hexDig (n / 16 % 16) :: hexDig (n % 16) :: rest)
      = (parseStrGo f rest).map (fun p => (Char.ofNat n :: p.1, p.2)) := by
  have hc1 : (decide (0xd800 ≤ n) && decide (n ≤ 0xdbff)) = false := by
    simp only [Bool.and_eq_false_iff, decide_eq_false_iff_not]
    omega
  have hc2 : (decide (0xdc00 ≤ n) && decide (n ≤ 0xdfff)) = false := by
    simp only [Bool.and_eq_false_iff, decide_eq_false_iff_not]
    omega
  simp only [parseStrGo]
  simp +decide [parseHex4_uEsc n hn, hc1, hc2]

theorem parseStrGo_surrogate (f n1 n2 : Nat)
    (h1 : 0xd800 ≤ n1 ∧ n1 ≤ 0xdbff) (h2 : 0xdc00 ≤ n2 ∧ n2 ≤ 0xdfff) (rest : List Char) :
    parseStrGo (f + 1) ('\\' :: 'u' :: hexDig (n1 / 4096 % 16) :: hexDig (n1 / 256 % 16) ::
        hexDig (n1 / 16 % 16) :: hexDig (n1 % 16) :: '\\' :: 'u' :: hexDig (n2 / 4096 % 16) ::
        hexDig (n2 / 256 % 16) :: hexDig (n2 / 16 % 16) :: hexDig (n2 % 16) :: rest)
      = (parseStrGo f rest).map
          (fun p => (Char.ofNat (0x10000 + (n1 - 0xd800) * 0x400 + (n2 - 0xdc00)) :: p.1, p.2)) := by
  have hc1 : (decide (0xd800 ≤ n1) && decide (n1 ≤ 0xdbff)) = true := by
    simp [h1.1, h1.2]
  have hc2 : (decide (0xdc00 ≤ n2) && decide (n2 ≤ 0xdfff)) = true := by
    simp [h2.1, h2.2]
  simp only [parseStrGo]
  simp +decide [parseHex4_uEsc n1 (by omega), hc1, parseHex4_uEsc n2 (by omega), hc2]

/-- Parsing the escaped rendering of a string body (plus closing quote)
recovers the original characters. -/
theorem parseStr_dump : ∀ (s r : List Char) (f : Nat),
    (s.flatMap escChar).length + 1 ≤ f →
    parseStrGo f (s.flatMap escChar ++ '"' :: r) = some (s, r) := by
  intro s
  induction s with
  | nil =>
    intro r f hf
    obtain ⟨f', rfl⟩ : ∃ f', f = f' + 1 := ⟨f - 1, by simp at hf; omega⟩
    simp [parseStrGo]
  | cons c s' ih =>
    intro r f hf
    rw [List.flatMap_cons] at hf ⊢
    rw [List.length_append] at hf
    have hlen : 1 ≤ (escChar c).length := by
      unfold escChar
      split_ifs <;> simp [uEsc]
    obtain ⟨f', rfl⟩ : ∃ f', f = f' + 1 := ⟨f - 1, by omega⟩
    have hf' : (s'.flatMap escChar).length + 1 ≤ f' := by omega
    rw [List.append_assoc]
    by_cases hq : c = '"'
    · subst hq
      rw [show escChar '"' = ['\\', '"'] from rfl]
      simp only [List.cons_append, List.nil_append, parseStrGo]
      simp +decide [ih _ f' hf']
    · by_cases hb : c = '\\'
      · subst hb
        rw [show escChar '\\' = ['\\', '\\'] from rfl]
        simp only [List.cons_append, List.nil_append, parseStrGo]
        simp +decide [ih _ f' hf']
      · by_cases hn : c = '\n'
        · subst hn
          rw [show escChar '\n' = ['\\', 'n'] from rfl]
          simp only [List.cons_append, List.nil_append, parseStrGo]
          simp +decide [ih _ f' hf']
        · by_cases ht : c = '\t'
          · subst ht
            rw [show escChar '\t' = ['\\', 't'] from rfl]
            simp only [List.cons_append, List.nil_append, parseStrGo]
            simp +decide [ih _ f' hf']
          · by_cases hr2 : c = '\r'
            · subst hr2
              rw [show escChar '\r' = ['\\', 'r'] from rfl]
              simp only [List.cons_append, List.nil_append, parseStrGo]
              simp +decide [ih _ f' hf']
            · by_cases hbs : c = '\x08'
              · subst hbs
                rw [show escChar '\x08' = ['\\', 'b'] from rfl]
                simp only [List.cons_append, List.nil_append, parseStrGo]
                simp +decide [ih _ f' hf']
              · by_cases hff : c = '\x0c'
                · subst hff
                  rw [show escChar '\x0c' = ['\\', 'f'] from rfl]
                  simp only [List.cons_append, List.nil_append, parseStrGo]
                  simp +decide [ih _ f' hf']
                · by_cases hpr : 0x20 ≤ c.toNat ∧ c.toNat ≤ 0x7e
                  · have hE : escChar c = [c] := by
                      unfold escChar
                      rw [if_neg hq, if_neg hb, if_neg hn, if_neg ht, if_neg hr2, if_neg hbs,
                        if_neg hff, if_pos (by simp [hpr.1, hpr.2])]
                    rw [hE, List.singleton_append,
                      parseStrGo_cons_plain f' c _ hq hb (by omega)]
                    rw [ih _ f' hf']
                    rfl
                  · by_cases hbmp : c.toNat < 0x10000
                    · have hE : escChar c = uEsc c.toNat := by
                        unfold escChar
                        rw [if_neg hq, if_neg hb, if_neg hn, if_neg ht, if_neg hr2, if_neg hbs,
                          if_neg hff, if_neg (by simpa using fun h1 h2 => hpr ⟨h1, h2⟩),
                          if_pos hbmp]
                      have hval := char_toNat_valid c
                      rw [hE, uEsc_cons]
                      simp only [List.cons_append, List.nil_append]
                      rw [parseStrGo_unicode f' c.toNat hbmp (by omega), ih _ f' hf',
                        Char.ofNat_toNat]
                      rfl
                    · have hE : escChar c =
                          uEsc (0xd800 + (c.toNat - 0x10000) / 0x400) ++
                            uEsc (0xdc00 + (c.toNat - 0x10000) % 0x400) := by
                        unfold escChar
                        rw [if_neg hq, if_neg hb, if_neg hn, if_neg ht, if_neg hr2, if_neg hbs,
                          if_neg hff, if_neg (by simpa using fun h1 h2 => hpr ⟨h1, h2⟩),
                          if_neg hbmp]
                      have hval := char_toNat_valid c
                      have hup : c.toNat < 0x110000 := by omega
                      rw [hE, uEsc_cons, uEsc_cons]
                      simp only [List.cons_append, List.nil_append]
                      rw [parseStrGo_surrogate f' _ _ ⟨by omega, by omega⟩
                        ⟨by omega, by omega⟩, ih _ f' hf']
                      have hcomb : 0x10000 + (0xd800 + (c.toNat - 0x10000) / 0x400 - 0xd800)
                          * 0x400 + (0xdc00 + (c.toNat - 0x10000) % 0x400 - 0xdc00)
                          = c.toNat := by omega
                      rw [hcomb, Char.ofNat_toNat]
                      rfl

/-! ## Whitespace handling around serialized values -/

theorem skipWs_ws_append :
    ∀ (w s : List Char), (∀ c ∈ w, isWsC c = true) → skipWs (w ++ s) = skipWs s := by
  intro w
  induction w with
  | nil => intro s _; rfl
  | cons c t ih =>
    intro s h
    show skipWs (c :: (t ++ s)) = skipWs s
    rw [skipWs, List.dropWhile_cons, if_pos (h c (List.mem_cons_self _ _))]
    exact ih s (fun d hd => h d (List.mem_cons_of_mem _ hd))

theorem skipWs_cons_notWs {c : Char} (h : isWsC c = false) (s : List Char) :
    skipWs (c :: s) = c :: s := by
  rw [skipWs, List.dropWhile_cons, h]
  simp

theorem nlInd_ws (lvl : Nat) : ∀ c ∈ nlInd lvl, isWsC c = true := by
  intro c hc
  rw [nlInd, List.mem_cons] at hc
  rcases hc with rfl | hc
  · rfl
  · rw [List.eq_of_mem_replicate hc]
    rfl

theorem parseVal_ws (f : Nat) (w s : List Char) (hw : ∀ c ∈ w, isWsC c = true) :
    parseVal f (w ++ s) = parseVal f s := by
  cases f with
  | zero => rfl
  | succ f =>
    simp only [parseVal]
    rw [skipWs_ws_append w s hw]

theorem parseElems_ws (f : Nat) (w s : List Char) (hw : ∀ c ∈ w, isWsC c = true) :
    parseElems f (w ++ s) = parseElems f s := by
  cases f with
  | zero => rfl
  | succ f =>
    simp only [parseElems]
    rw [parseVal_ws f w s hw]

theorem parseMems_ws (f : Nat) (w s : List Char) (hw : ∀ c ∈ w, isWsC c = true) :
    parseMems f (w ++ s) = parseMems f s := by
  cases f with
  | zero => rfl
  | succ f =>
    simp only [parseMems]
    rw [skipWs_ws_append w s hw]

theorem digit_not_special {c : Char} (hd : isDigitC c = true) :
    isWsC c = false ∧ c ≠ ']' ∧ c ≠ '\x7d' ∧ c ≠ 'n' ∧ c ≠ 't' ∧ c ≠ 'f' ∧ c ≠ '"' ∧
      c ≠ '[' ∧ c ≠ '\x7b' := by
  have h := isDigitC_iff.mp hd
  refine ⟨?_, char_ne_of_toNat (by change _ ≠ 93; omega),
    char_ne_of_toNat (by change _ ≠ 125; omega), char_ne_of_toNat (by change _ ≠ 110; omega),
    char_ne_of_toNat (by change _ ≠ 116; omega), char_ne_of_toNat (by change _ ≠ 102; omega),
    char_ne_of_toNat (by change _ ≠ 34; omega), char_ne_of_toNat (by change _ ≠ 91; omega),
    char_ne_of_toNat (by change _ ≠ 123; omega)⟩
  rw [isWsC]
  simp only [Bool.or_eq_false_iff, decide_eq_false_iff_not]
  exact ⟨⟨⟨char_ne_of_toNat (by change _ ≠ 32; omega),
    char_ne_of_toNat (by change _ ≠ 9; omega)⟩,
    char_ne_of_toNat (by change _ ≠ 10; omega)⟩,
    char_ne_of_toNat (by change _ ≠ 13; omega)⟩

/-- Every serialized value starts with a non-whitespace character that is
neither a closing bracket nor a closing brace. -/
theorem jsonDump_cons (v : JsonVal) (lvl : Nat) :
    ∃ c t, jsonDump v lvl = c :: t ∧ isWsC c = false ∧ c ≠ ']' ∧ c ≠ '\x7d' := by
  cases v with
  | null => exact ⟨'n', ['u', 'l', 'l'], by simp [jsonDump], by decide, by decide, by decide⟩
  | bool b =>
    cases b with
    | true => exact ⟨'t', ['r', 'u', 'e'], by simp [jsonDump], by decide, by decide, by decide⟩
    | false =>
      exact ⟨'f', ['a', 'l', 's', 'e'], by simp [jsonDump], by decide, by decide, by decide⟩
  | num k =>
    have hd : jsonDump (JsonVal.num k) lvl = intToChars k := by simp [jsonDump]
    cases k with
    | ofNat n =>
      obtain ⟨c, t, hct, hdig, -⟩ := natToDigits_cons n
      have h := digit_not_special hdig
      exact ⟨c, t, by rw [hd]; exact hct, h.1, h.2.1, h.2.2.1⟩
    | negSucc m =>
      exact ⟨'-', natToDigits (m + 1), by rw [hd]; rfl, by decide, by decide, by decide⟩
  | str s =>
    exact ⟨'"', s.flatMap escChar ++ ['"'], by simp [jsonDump, dumpStr], by decide, by decide,
      by decide⟩
  | arr xs =>
    cases xs with
    | nil => exact ⟨'[', [']'], by simp [jsonDump], by decide, by decide, by decide⟩
    | cons x xs =>
      exact ⟨'[', nlInd (lvl + 1) ++ jsonDump x (lvl + 1) ++ dumpElems xs (lvl + 1) ++
        nlInd lvl ++ [']'], by simp [jsonDump], by decide, by decide, by decide⟩
  | obj ps =>
    cases ps with
    | nil => exact ⟨'\x7b', ['\x7d'], by simp [jsonDump], by decide, by decide, by decide⟩
    | cons q qs =>
      exact ⟨'\x7b', nlInd (lvl + 1) ++ dumpStr q.1 ++ ':' :: ' ' :: jsonDump q.2 (lvl + 1) ++
        dumpMems qs (lvl + 1) ++ nlInd lvl ++ ['\x7d'], by simp [jsonDump], by decide,
        by decide, by decide⟩

/-- Skipping whitespace in front of a serialized value is a no-op. -/
theorem skipWs_dump (v : JsonVal) (lvl : Nat) (r : List Char) :
    skipWs (jsonDump v lvl ++ r) = jsonDump v lvl ++ r := by
  obtain ⟨c, t, hct, hws, -, -⟩ := jsonDump_cons v lvl
  rw [hct, List.cons_append, skipWs_cons_notWs hws]

theorem sepOK_dumpElems (xs : List JsonVal) (lvl lvl2 : Nat) (z : List Char) :
    sepOK (dumpElems xs lvl ++ (nlInd lvl2 ++ z)) = true := by
  cases xs with
  | nil => rfl
  | cons y ys =>
    have : dumpElems (y :: ys) lvl = ',' :: (nlInd lvl ++ jsonDump y lvl ++ dumpElems ys lvl) := by
      simp [dumpElems]
    rw [this]
    rfl

theorem sepOK_dumpMems (qs : List (List Char × JsonVal)) (lvl lvl2 : Nat) (z : List Char) :
    sepOK (dumpMems qs lvl ++ (nlInd lvl2 ++ z)) = true := by
  cases qs with
  | nil => rfl
  | cons q qs' =>
    have : dumpMems (q :: qs') lvl = ',' :: (nlInd lvl ++ dumpStr q.1 ++ ':' :: ' ' ::
        jsonDump q.2 lvl ++ dumpMems qs' lvl) := by
      simp [dumpMems]
    rw [this]
    rfl

/-! ## Well-formed values: what `json.loads` can produce -/

/-- All keys of the association list distinct. -/
def nodupKeys : List (List Char × JsonVal) → Bool
  | [] => true
  | q :: rest => !(keyMem q.1 rest) && nodupKeys rest

mutual

/-- A value is well-formed when every object inside has distinct keys —
an invariant of everything `json.loads` returns (its objects are Python
`dict`s). -/
def wfJ : JsonVal → Bool
  | .null => true
  | .bool _ => true
  | .num _ => true
  | .str _ => true
  | .arr xs => wfL xs
  | .obj ps => nodupKeys ps && wfP ps

/-- All list elements well-formed. -/
def wfL : List JsonVal → Bool
  | [] => true
  | x :: xs => wfJ x && wfL xs

/-- All member values well-formed. -/
def wfP : List (List Char × JsonVal) → Bool
  | [] => true
  | q :: qs => wfJ q.2 && wfP qs

end

theorem keyMem_cons (k : List Char) (p : List Char × JsonVal)
    (l : List (List Char × JsonVal)) :
    keyMem k (p :: l) = ((p.1 == k) || keyMem k l) := by
  simp [keyMem]

theorem keyMem_append (k : List Char) (a b : List (List Char × JsonVal)) :
    keyMem k (a ++ b) = (keyMem k a || keyMem k b) := by
  simp [keyMem, List.any_append]

theorem keyMem_setKey (k' k : List Char) (v : JsonVal) :
    ∀ l, keyMem k' (setKey k v l) = keyMem k' l := by
  intro l
  induction l with
  | nil => rfl
  | cons p rest ih =>
    rw [setKey]
    by_cases hp : (p.1 == k) = true
    · rw [if_pos hp, keyMem_cons, keyMem_cons]
      have : p.1 = k := by simpa using hp
      rw [this]
    · rw [if_neg (by simpa using hp), keyMem_cons, keyMem_cons, ih]

theorem nodup_setKey (k : List Char) (v : JsonVal) :
    ∀ l, nodupKeys l = true → nodupKeys (setKey k v l) = true := by
  intro l
  induction l with
  | nil => intro _; rfl
  | cons p rest ih =>
    intro h
    rw [nodupKeys, Bool.and_eq_true] at h
    rw [setKey]
    by_cases hp : (p.1 == k) = true
    · rw [if_pos hp]
      have : p.1 = k := by simpa using hp
      rw [nodupKeys, Bool.and_eq_true, ← this]
      exact ⟨h.1, h.2⟩
    · rw [if_neg (by simpa using hp)]
      rw [nodupKeys, Bool.and_eq_true, keyMem_setKey]
      exact ⟨h.1, ih h.2⟩

theorem nodup_append_single (kv : List Char × JsonVal) :
    ∀ l, nodupKeys l = true → keyMem kv.1 l = false → nodupKeys (l ++ [kv]) = true := by
  intro l
  induction l with
  | nil => intro _ _; simp [nodupKeys, keyMem]
  | cons p rest ih =>
    intro h hk
    rw [nodupKeys, Bool.and_eq_true] at h
    rw [keyMem_cons, Bool.or_eq_false_iff] at hk
    rw [List.cons_append, nodupKeys, Bool.and_eq_true, keyMem_append]
    refine ⟨?_, ih h.2 hk.2⟩
    have h1 : keyMem p.1 rest = false := by simpa using h.1
    have h2 : (kv.1 == p.1) = false := by
      have hne : ¬ p.1 = kv.1 := by simpa using hk.1
      simpa using fun he => hne he.symm
    have h3 : keyMem p.1 [kv] = false := by
      rw [keyMem_cons, h2]
      rfl
    rw [h1, h3]
    rfl

theorem nodup_objInsert (kv : List Char × JsonVal) (l : List (List Char × JsonVal))
    (h : nodupKeys l = true) : nodupKeys (objInsert l kv) = true := by
  rw [objInsert]
  by_cases hk : keyMem kv.1 l = true
  · rw [if_pos hk]
    exact nodup_setKey kv.1 kv.2 l h
  · rw [if_neg (by simpa using hk)]
    exact nodup_append_single kv l h (by simpa using hk)

theorem nodup_dedup_aux :
    ∀ (ps : List (List Char × JsonVal)) (acc : List (List Char × JsonVal)),
      nodupKeys acc = true → nodupKeys (ps.foldl objInsert acc) = true := by
  intro ps
  induction ps with
  | nil => intro acc h; exact h
  | cons q ps' ih =>
    intro acc h
    rw [List.foldl_cons]
    exact ih (objInsert acc q) (nodup_objInsert q acc h)

theorem nodup_dedupPairs (ps : List (List Char × JsonVal)) :
    nodupKeys (dedupPairs ps) = true := nodup_dedup_aux ps [] rfl

theorem wfP_setKey (k : List Char) (v : JsonVal) (hv : wfJ v = true) :
    ∀ l, wfP l = true → wfP (setKey k v l) = true := by
  intro l
  induction l with
  | nil => intro _; rfl
  | cons p rest ih =>
    intro h
    rw [wfP, Bool.and_eq_true] at h
    rw [setKey]
    by_cases hp : (p.1 == k) = true
    · rw [if_pos hp, wfP, Bool.and_eq_true]
      exact ⟨hv, h.2⟩
    · rw [if_neg (by simpa using hp), wfP, Bool.and_eq_true]
      exact ⟨h.1, ih h.2⟩

theorem wfP_append_single (kv : List Char × JsonVal) (hv : wfJ kv.2 = true) :
    ∀ l, wfP l = true → wfP (l ++ [kv]) = true := by
  intro l
  induction l with
  | nil => intro _; simp [wfP, hv]
  | cons p rest ih =>
    intro h
    rw [wfP, Bool.and_eq_true] at h
    rw [List.cons_append, wfP, Bool.and_eq_true]
    exact ⟨h.1, ih h.2⟩

theorem wfP_objInsert (kv : List Char × JsonVal) (hv : wfJ kv.2 = true)
    (l : List (List Char × JsonVal)) (h : wfP l = true) : wfP (objInsert l kv) = true := by
  rw [objInsert]
  by_cases hk : keyMem kv.1 l = true
  · rw [if_pos hk]
    exact wfP_setKey kv.1 kv.2 hv l h
  · rw [if_neg (by simpa using hk)]
    exact wfP_append_single kv hv l h

theorem wfP_dedup_aux :
    ∀ (ps acc : List (List Char × JsonVal)), wfP acc = true → wfP ps = true →
      wfP (ps.foldl objInsert acc) = true := by
  intro ps
  induction ps with
  | nil => intro acc h _; exact h
  | cons q ps' ih =>
    intro acc hacc hps
    rw [wfP, Bool.and_eq_true] at hps
    rw [List.foldl_cons]
    exact ih (objInsert acc q) (wfP_objInsert q hps.1 acc hacc) hps.2

theorem wfP_dedupPairs (ps : List (List Char × JsonVal)) (h : wfP ps = true) :
    wfP (dedupPairs ps) = true := wfP_dedup_aux ps [] rfl h

theorem nodup_mid :
    ∀ (acc : List (List Char × JsonVal)) (q : List Char × JsonVal)
      (ps : List (List Char × JsonVal)), nodupKeys (acc ++ q :: ps) = true →
      keyMem q.1 acc = false := by
  intro acc
  induction acc with
  | nil => intro _ _ _; rfl
  | cons a acc' ih =>
    intro q ps h
    rw [List.cons_append, nodupKeys, Bool.and_eq_true] at h
    rw [keyMem_cons, Bool.or_eq_false_iff]
    refine ⟨?_, ih q ps h.2⟩
    have h1 : keyMem a.1 (acc' ++ q :: ps) = false := by simpa using h.1
    rw [keyMem_append, Bool.or_eq_false_iff, keyMem_cons, Bool.or_eq_false_iff] at h1
    have : ¬ q.1 = a.1 := by simpa using h1.2.1
    simpa using fun he => this he.symm

/-- On key-distinct member lists, Python's `dict` construction is the
identity. -/
theorem dedup_id_aux :
    ∀ (ps acc : List (List Char × JsonVal)), nodupKeys (acc ++ ps) = true →
      ps.foldl objInsert acc = acc ++ ps := by
  intro ps
  induction ps with
  | nil => intro acc _; simp
  | cons q ps' ih =>
    intro acc h
    rw [List.foldl_cons]
    have hkm : keyMem q.1 acc = false := nodup_mid acc q ps' h
    have hins : objInsert acc q = acc ++ [q] := by
      rw [objInsert, if_neg (by simp [hkm])]
    rw [hins, ih (acc ++ [q]) (by rw [List.append_assoc, List.singleton_append]; exact h),
      List.append_assoc, List.singleton_append]

theorem dedupPairs_id (ps : List (List Char × JsonVal)) (h : nodupKeys ps = true) :
    dedupPairs ps = ps := dedup_id_aux ps [] (by simpa using h)

/-- Everything the parser produces is well-formed: objects got their keys
deduplicated on construction. -/
theorem parse_wf_all : ∀ f : Nat,
    (∀ s v r, parseVal f s = some (v, r) → wfJ v = true) ∧
    (∀ s l r, parseElems f s = some (l, r) → wfL l = true) ∧
    (∀ s l r, parseMems f s = some (l, r) → wfP l = true) := by
  intro f
  induction f with
  | zero =>
    refine ⟨fun s v r h => ?_, fun s l r h => ?_, fun s l r h => ?_⟩ <;>
      simp [parseVal, parseElems, parseMems] at h
  | succ f ih =>
    obtain ⟨ihv, ihe, ihm⟩ := ih
    refine ⟨fun s v r h => ?_, fun s l r h => ?_, fun s l r h => ?_⟩
    · simp only [parseVal] at h
      split at h
      · simp at h
      · split_ifs at h with h1 h2 h3 h4 h5 h6
        · split at h
          · simp only [Option.some.injEq, Prod.mk.injEq] at h
            rw [← h.1]
            simp [wfJ]
          · simp at h
        · split at h
          · simp only [Option.some.injEq, Prod.mk.injEq] at h
            rw [← h.1]
            simp [wfJ]
          · simp at h
        · split at h
          · simp only [Option.some.injEq, Prod.mk.injEq] at h
            rw [← h.1]
            simp [wfJ]
          · simp at h
        · rw [Option.map_eq_some'] at h
          obtain ⟨p, hp, he⟩ := h
          simp only [Prod.mk.injEq] at he
          rw [← he.1]
          simp [wfJ]
        · split at h
          · simp at h
          · split_ifs at h with hb
            · simp only [Option.some.injEq, Prod.mk.injEq] at h
              rw [← h.1]
              simp [wfJ, wfL]
            · rw [Option.map_eq_some'] at h
              obtain ⟨p, hp, he⟩ := h
              simp only [Prod.mk.injEq] at he
              rw [← he.1]
              rw [show wfJ (JsonVal.arr p.1) = wfL p.1 by simp [wfJ]]
              exact ihe _ p.1 p.2 hp
        · split at h
          · simp at h
          · split_ifs at h with hb
            · simp only [Option.some.injEq, Prod.mk.injEq] at h
              rw [← h.1]
              simp [wfJ, nodupKeys, wfP]
            · rw [Option.map_eq_some'] at h
              obtain ⟨p, hp, he⟩ := h
              simp only [Prod.mk.injEq] at he
              rw [← he.1]
              rw [show wfJ (JsonVal.obj (dedupPairs p.1))
                  = (nodupKeys (dedupPairs p.1) && wfP (dedupPairs p.1)) by simp [wfJ]]
              simp [nodup_dedupPairs p.1, wfP_dedupPairs p.1 (ihm _ p.1 p.2 hp)]
        · rw [Option.map_eq_some'] at h
          obtain ⟨p, hp, he⟩ := h
          simp only [Prod.mk.injEq] at he
          rw [← he.1]
          simp [wfJ]
    · simp only [parseElems] at h
      rw [Option.bind_eq_some] at h
      obtain ⟨p, hp, h⟩ := h
      split at h
      · simp at h
      · split_ifs at h with hc1 hc2
        · rw [Option.map_eq_some'] at h
          obtain ⟨q, hq, he⟩ := h
          simp only [Prod.mk.injEq] at he
          rw [← he.1]
          rw [show wfL (p.1 :: q.1) = (wfJ p.1 && wfL q.1) by simp [wfL]]
          simp [ihv _ p.1 p.2 hp, ihe _ q.1 q.2 hq]
        · simp only [Option.some.injEq, Prod.mk.injEq] at h
          rw [← h.1]
          simp [wfL, ihv _ p.1 p.2 hp]
    · simp only [parseMems] at h
      split at h
      · simp at h
      · split_ifs at h with hq
        · rw [Option.bind_eq_some] at h
          obtain ⟨kp, hkp, h⟩ := h
          split at h
          · simp at h
          · split_ifs at h with hcol
            · rw [Option.bind_eq_some] at h
              obtain ⟨vp, hvp, h⟩ := h
              split at h
              · simp at h
              · split_ifs at h with hcomma hbrace
                · rw [Option.map_eq_some'] at h
                  obtain ⟨q, hq2, he⟩ := h
                  simp only [Prod.mk.injEq] at he
                  rw [← he.1]
                  rw [show wfP ((kp.1, vp.1) :: q.1) = (wfJ vp.1 && wfP q.1) by simp [wfP]]
                  simp [ihv _ vp.1 vp.2 hvp, ihm _ q.1 q.2 hq2]
                · simp only [Option.some.injEq, Prod.mk.injEq] at h
                  rw [← h.1]
                  simp [wfP, ihv _ vp.1 vp.2 hvp]

theorem nlInd_length (lvl : Nat) : (nlInd lvl).length = 1 + indentW * lvl := by
  simp [nlInd]
  omega

theorem jsonDump_length_pos (v : JsonVal) (lvl : Nat) : 1 ≤ (jsonDump v lvl).length := by
  obtain ⟨c, t, hct, -, -, -⟩ := jsonDump_cons v lvl
  rw [hct]
  simp

/-- Round trip: parsing the `indent=2` serialization of a well-formed value
(with a separator-compatible continuation) recovers the value exactly.
Proved simultaneously for values, array tails and object tails by strong
induction on size. -/
theorem parse_dump_main : ∀ N : Nat,
    (∀ v, sizeOf v ≤ N → wfJ v = true → ∀ lvl rest f, sepOK rest = true →
      2 * (jsonDump v lvl).length ≤ f →
      parseVal f (jsonDump v lvl ++ rest) = some (v, rest)) ∧
    (∀ x xs, sizeOf x + sizeOf xs ≤ N → wfJ x = true → wfL xs = true →
      ∀ lvl lvl2 rest f, sepOK rest = true →
      2 * ((jsonDump x lvl).length + (dumpElems xs lvl).length) + 2 ≤ f →
      parseElems f (jsonDump x lvl ++ (dumpElems xs lvl ++ (nlInd lvl2 ++ (']' :: rest))))
        = some (x :: xs, rest)) ∧
    (∀ qk qv qs, sizeOf qv + sizeOf qs ≤ N → wfJ qv = true → wfP qs = true →
      ∀ lvl lvl2 rest f, sepOK rest = true →
      2 * ((dumpStr qk).length + (jsonDump qv lvl).length + (dumpMems qs lvl).length) + 2 ≤ f →
      parseMems f (dumpStr qk ++ (':' :: ' ' :: (jsonDump qv lvl ++ (dumpMems qs lvl ++
        (nlInd lvl2 ++ ('\x7d' :: rest)))))) = some ((qk, qv) :: qs, rest)) := by
  intro N
  induction N using Nat.strong_induction_on with
  | _ N ih =>
    have hA : ∀ v, sizeOf v ≤ N → wfJ v = true → ∀ lvl rest f, sepOK rest = true →
        2 * (jsonDump v lvl).length ≤ f →
        parseVal f (jsonDump v lvl ++ rest) = some (v, rest) := by
      intro v hsz hwf lvl rest f hsep hf
      have hpos := jsonDump_length_pos v lvl
      obtain ⟨f', rfl⟩ : ∃ f', f = f' + 1 := ⟨f - 1, by omega⟩
      cases v with
      | null =>
        rw [show jsonDump JsonVal.null lvl = ['n', 'u', 'l', 'l'] by simp [jsonDump]]
        simp only [List.cons_append, List.nil_append, parseVal]
        rw [skipWs_cons_notWs (by decide)]
        simp +decide [stripLit]
      | bool b =>
        cases b with
        | true =>
          rw [show jsonDump (JsonVal.bool true) lvl = ['t', 'r', 'u', 'e'] by simp [jsonDump]]
          simp only [List.cons_append, List.nil_append, parseVal]
          rw [skipWs_cons_notWs (by decide)]
          simp +decide [stripLit]
        | false =>
          rw [show jsonDump (JsonVal.bool false) lvl = ['f', 'a', 'l', 's', 'e'] by
            simp [jsonDump]]
          simp only [List.cons_append, List.nil_append, parseVal]
          rw [skipWs_cons_notWs (by decide)]
          simp +decide [stripLit]
      | num k =>
        have hD : jsonDump (JsonVal.num k) lvl = intToChars k := by simp [jsonDump]
        cases k with
        | ofNat n =>
          obtain ⟨c, t, hct, hdig, -⟩ := natToDigits_cons n
          have hsp := digit_not_special hdig
          have hiD : jsonDump (JsonVal.num (Int.ofNat n)) lvl = c :: t := by
            rw [hD]; exact hct
          rw [hiD, List.cons_append]
          simp only [parseVal]
          rw [skipWs_cons_notWs hsp.1]
          simp only []
          rw [if_neg hsp.2.2.2.1, if_neg hsp.2.2.2.2.1, if_neg hsp.2.2.2.2.2.1,
            if_neg hsp.2.2.2.2.2.2.1, if_neg hsp.2.2.2.2.2.2.2.1, if_neg hsp.2.2.2.2.2.2.2.2]
          rw [show c :: (t ++ rest) = natToDigits n ++ rest by rw [hct]; rfl]
          have hint := parseIntTok_intToChars (Int.ofNat n) rest hsep
          rw [show intToChars (Int.ofNat n) = natToDigits n from rfl] at hint
          rw [hint]
          rfl
        | negSucc m =>
          have hiD : jsonDump (JsonVal.num (Int.negSucc m)) lvl
              = '-' :: natToDigits (m + 1) := by rw [hD]; rfl
          rw [hiD, List.cons_append]
          simp only [parseVal]
          rw [skipWs_cons_notWs (by decide)]
          simp +decide only [if_true, if_false]
          rw [show '-' :: (natToDigits (m + 1) ++ rest)
              = intToChars (Int.negSucc m) ++ rest by rfl]
          rw [parseIntTok_intToChars (Int.negSucc m) rest hsep]
          rfl
      | str s =>
        rw [show jsonDump (JsonVal.str s) lvl = '"' :: (s.flatMap escChar ++ ['"']) by
          simp [jsonDump, dumpStr]]
        simp only [List.cons_append, parseVal]
        rw [skipWs_cons_notWs (by decide)]
        simp +decide only [if_true, if_false]
        rw [show (s.flatMap escChar ++ ['"']) ++ rest = s.flatMap escChar ++ '"' :: rest by
          simp]
        rw [parseStr_dump s rest _ (by simp [List.length_append])]
        rfl
      | arr xs =>
        cases xs with
        | nil =>
          rw [show jsonDump (JsonVal.arr []) lvl = ['[', ']'] by simp [jsonDump]]
          simp only [List.cons_append, List.nil_append, parseVal]
          rw [skipWs_cons_notWs (by decide)]
          simp +decide only [if_true, if_false]
          rw [skipWs_cons_notWs (by decide)]
          simp +decide
        | cons x xs =>
          have hsplit : jsonDump (JsonVal.arr (x :: xs)) lvl ++ rest
              = '[' :: (nlInd (lvl + 1) ++ (jsonDump x (lvl + 1) ++ (dumpElems xs (lvl + 1) ++
                (nlInd lvl ++ (']' :: rest))))) := by
            simp [jsonDump, List.append_assoc]
          have hszx : sizeOf x + sizeOf xs < N := by
            have : sizeOf (JsonVal.arr (x :: xs)) = 2 + sizeOf x + sizeOf xs := by
              simp [List.cons.sizeOf_spec]
              omega
            omega
          have hwf2 : wfJ x = true ∧ wfL xs = true := by
            rw [show wfJ (JsonVal.arr (x :: xs)) = (wfJ x && wfL xs) by simp [wfJ, wfL]] at hwf
            simpa using hwf
          have hlen : (jsonDump (JsonVal.arr (x :: xs)) lvl).length
              = 1 + ((nlInd (lvl + 1)).length + ((jsonDump x (lvl + 1)).length +
                ((dumpElems xs (lvl + 1)).length + ((nlInd lvl).length + 1)))) := by
            simp [jsonDump]
            ring
          have hnl1 := nlInd_length (lvl + 1)
          have hnl2 := nlInd_length lvl
          rw [hsplit]
          simp only [parseVal]
          rw [skipWs_cons_notWs (by decide)]
          simp +decide only [if_true, if_false]
          rw [skipWs_ws_append (nlInd (lvl + 1)) _ (nlInd_ws _), skipWs_dump]
          obtain ⟨c1, t1, hct1, -, hne1, -⟩ := jsonDump_cons x (lvl + 1)
          rw [hct1, List.cons_append]
          simp only []
          rw [if_neg hne1, ← List.cons_append, ← hct1]
          rw [(ih (sizeOf x + sizeOf xs) hszx).2.1 x xs (Nat.le_refl _) hwf2.1 hwf2.2
            (lvl + 1) lvl rest f' hsep (by omega)]
          rfl
      | obj ps =>
        cases ps with
        | nil =>
          rw [show jsonDump (JsonVal.obj []) lvl = ['\x7b', '\x7d'] by simp [jsonDump]]
          simp only [List.cons_append, List.nil_append, parseVal]
          rw [skipWs_cons_notWs (by decide)]
          simp +decide only [if_true, if_false]
          rw [skipWs_cons_notWs (by decide)]
          simp +decide [dedupPairs]
        | cons q qs =>
          obtain ⟨qk, qv⟩ := q
          have hsplit : jsonDump (JsonVal.obj ((qk, qv) :: qs)) lvl ++ rest
              = '\x7b' :: (nlInd (lvl + 1) ++ (dumpStr qk ++ (':' :: ' ' ::
                (jsonDump qv (lvl + 1) ++ (dumpMems qs (lvl + 1) ++
                  (nlInd lvl ++ ('\x7d' :: rest))))))) := by
            simp [jsonDump, List.append_assoc]
          have hszq : sizeOf qv + sizeOf qs < N := by
            have : sizeOf (JsonVal.obj ((qk, qv) :: qs))
                = 2 + (1 + sizeOf qk + sizeOf qv) + sizeOf qs := by
              simp [List.cons.sizeOf_spec, Prod.mk.sizeOf_spec]
              try omega
            have hk : 0 ≤ sizeOf qk := Nat.zero_le _
            omega
          have hnodup : nodupKeys ((qk, qv) :: qs) = true ∧ wfJ qv = true ∧ wfP qs = true := by
            rw [show wfJ (JsonVal.obj ((qk, qv) :: qs))
                = (nodupKeys ((qk, qv) :: qs) && (wfJ qv && wfP qs)) by simp [wfJ, wfP]] at hwf
            simpa using hwf
          have hlen : (jsonDump (JsonVal.obj ((qk, qv) :: qs)) lvl).length
              = 1 + ((nlInd (lvl + 1)).length + ((dumpStr qk).length +
                (2 + ((jsonDump qv (lvl + 1)).length + ((dumpMems qs (lvl + 1)).length +
                  ((nlInd lvl).length + 1)))))) := by
            simp [jsonDump, dumpStr]
            ring
          have hnl1 := nlInd_length (lvl + 1)
          have hnl2 := nlInd_length lvl
          rw [hsplit]
          simp only [parseVal]
          rw [skipWs_cons_notWs (by decide)]
          simp +decide only [if_true, if_false]
          rw [skipWs_ws_append (nlInd (lvl + 1)) _ (nlInd_ws _)]
          rw [show dumpStr qk ++ (':' :: ' ' :: (jsonDump qv (lvl + 1) ++
              (dumpMems qs (lvl + 1) ++ (nlInd lvl ++ ('\x7d' :: rest)))))
              = '"' :: ((qk.flatMap escChar ++ ['"']) ++ (':' :: ' ' ::
                (jsonDump qv (lvl + 1) ++ (dumpMems qs (lvl + 1) ++
                  (nlInd lvl ++ ('\x7d' :: rest)))))) by simp [dumpStr]]
          rw [skipWs_cons_notWs (by decide)]
          simp only []
          rw [if_neg (by decide : ¬ ('"' : Char) = '\x7d')]
          rw [show '"' :: ((qk.flatMap escChar ++ ['"']) ++ (':' :: ' ' ::
              (jsonDump qv (lvl + 1) ++ (dumpMems qs (lvl + 1) ++
                (nlInd lvl ++ ('\x7d' :: rest))))))
              = dumpStr qk ++ (':' :: ' ' :: (jsonDump qv (lvl + 1) ++
                (dumpMems qs (lvl + 1) ++ (nlInd lvl ++ ('\x7d' :: rest))))) by
            simp [dumpStr]]
          rw [(ih (sizeOf qv + sizeOf qs) hszq).2.2 qk qv qs (Nat.le_refl _) hnodup.2.1
            hnodup.2.2 (lvl + 1) lvl rest f' hsep (by omega)]
          simp only [Option.map_some']
          rw [dedupPairs_id _ hnodup.1]
    refine ⟨hA, ?_, ?_⟩
    · intro x xs
      induction xs generalizing x with
      | nil =>
        intro hsz hwfx _ lvl lvl2 rest f hsep hf
        have hpos := jsonDump_length_pos x lvl
        obtain ⟨f', rfl⟩ : ∃ f', f = f' + 1 := ⟨f - 1, by omega⟩
        simp only [parseElems]
        rw [hA x (by omega) hwfx lvl _ f' (sepOK_dumpElems _ _ _ _) (by omega)]
        simp only [Option.some_bind]
        rw [show dumpElems [] lvl ++ (nlInd lvl2 ++ (']' :: rest))
            = nlInd lvl2 ++ (']' :: rest) by simp [dumpElems]]
        rw [skipWs_ws_append (nlInd lvl2) _ (nlInd_ws _), skipWs_cons_notWs (by decide)]
        simp +decide
      | cons y ys ihys =>
        intro hsz hwfx hwfl lvl lvl2 rest f hsep hf
        have hpos := jsonDump_length_pos x lvl
        have hposy := jsonDump_length_pos y lvl
        have hwfy : wfJ y = true ∧ wfL ys = true := by
          rw [show wfL (y :: ys) = (wfJ y && wfL ys) by simp [wfL]] at hwfl
          simpa using hwfl
        have hszy : sizeOf y + sizeOf ys ≤ N := by
          have : sizeOf (y :: ys) = 1 + sizeOf y + sizeOf ys := by
            simp [List.cons.sizeOf_spec]
            try omega
          omega
        have hlenE : (dumpElems (y :: ys) lvl).length
            = 1 + ((nlInd lvl).length + ((jsonDump y lvl).length +
              (dumpElems ys lvl).length)) := by
          simp [dumpElems]
          ring
        have hnl := nlInd_length lvl
        obtain ⟨f', rfl⟩ : ∃ f', f = f' + 1 := ⟨f - 1, by omega⟩
        simp only [parseElems]
        rw [hA x (by omega) hwfx lvl _ f' (sepOK_dumpElems _ _ _ _) (by omega)]
        simp only [Option.some_bind]
        have hE : dumpElems (y :: ys) lvl ++ (nlInd lvl2 ++ (']' :: rest))
            = ',' :: (nlInd lvl ++ (jsonDump y lvl ++ (dumpElems ys lvl ++
              (nlInd lvl2 ++ (']' :: rest))))) := by
          simp [dumpElems, List.append_assoc]
        rw [hE, skipWs_cons_notWs (by decide)]
        simp +decide only [if_true, if_false]
        rw [parseElems_ws f' (nlInd lvl) _ (nlInd_ws _),
          ihys y (by omega) hwfy.1 hwfy.2 lvl lvl2 rest f' hsep (by omega)]
        rfl
    · intro qk qv qs
      induction qs generalizing qk qv with
      | nil =>
        intro hsz hwfv _ lvl lvl2 rest f hsep hf
        have hpos := jsonDump_length_pos qv lvl
        obtain ⟨f', rfl⟩ : ∃ f', f = f' + 1 := ⟨f - 1, by omega⟩
        simp only [parseMems]
        rw [show dumpStr qk ++ (':' :: ' ' :: (jsonDump qv lvl ++ (dumpMems [] lvl ++
            (nlInd lvl2 ++ ('\x7d' :: rest)))))
            = '"' :: ((qk.flatMap escChar ++ ['"']) ++ (':' :: ' ' :: (jsonDump qv lvl ++
              (dumpMems [] lvl ++ (nlInd lvl2 ++ ('\x7d' :: rest)))))) by simp [dumpStr]]
        rw [skipWs_cons_notWs (by decide)]
        simp +decide only [if_true, if_false]
        rw [show (qk.flatMap escChar ++ ['"']) ++ (':' :: ' ' :: (jsonDump qv lvl ++
            (dumpMems [] lvl ++ (nlInd lvl2 ++ ('\x7d' :: rest)))))
            = qk.flatMap escChar ++ '"' :: (':' :: ' ' :: (jsonDump qv lvl ++
              (dumpMems [] lvl ++ (nlInd lvl2 ++ ('\x7d' :: rest))))) by simp]
        rw [parseStr_dump qk _ _ (by simp [List.length_append])]
        simp only [Option.some_bind]
        rw [skipWs_cons_notWs (by decide)]
        simp +decide only [if_true, if_false]
        rw [show ' ' :: (jsonDump qv lvl ++ (dumpMems [] lvl ++ (nlInd lvl2 ++
            ('\x7d' :: rest)))) = [' '] ++ (jsonDump qv lvl ++ (dumpMems [] lvl ++
              (nlInd lvl2 ++ ('\x7d' :: rest)))) from rfl]
        rw [parseVal_ws f' [' '] _ (by decide)]
        rw [hA qv (by omega) hwfv lvl _ f' (sepOK_dumpMems _ _ _ _) (by omega)]
        simp only [Option.some_bind]
        rw [show dumpMems [] lvl ++ (nlInd lvl2 ++ ('\x7d' :: rest))
            = nlInd lvl2 ++ ('\x7d' :: rest) by simp [dumpMems]]
        rw [skipWs_ws_append (nlInd lvl2) _ (nlInd_ws _), skipWs_cons_notWs (by decide)]
        simp +decide
      | cons q2 qs' ihqs =>
        obtain ⟨q2k, q2v⟩ := q2
        intro hsz hwfv hwfp lvl lvl2 rest f hsep hf
        have hpos := jsonDump_length_pos qv lvl
        have hpos2 := jsonDump_length_pos q2v lvl
        have hwfq2 : wfJ q2v = true ∧ wfP qs' = true := by
          rw [show wfP ((q2k, q2v) :: qs') = (wfJ q2v && wfP qs') by simp [wfP]] at hwfp
          simpa using hwfp
        have hszq2 : sizeOf q2v + sizeOf qs' ≤ N := by
          have h1 : sizeOf ((q2k, q2v) :: qs')
              = 1 + (1 + sizeOf q2k + sizeOf q2v) + sizeOf qs' := by
            simp [List.cons.sizeOf_spec, Prod.mk.sizeOf_spec]
            try omega
          have hk : 0 ≤ sizeOf q2k := Nat.zero_le _
          omega
        have hlenM : (dumpMems ((q2k, q2v) :: qs') lvl).length
            = 1 + ((nlInd lvl).length + ((dumpStr q2k).length +
              (2 + ((jsonDump q2v lvl).length + (dumpMems qs' lvl).length)))) := by
          simp [dumpMems, dumpStr]
          ring
        have hnl := nlInd_length lvl
        obtain ⟨f', rfl⟩ : ∃ f', f = f' + 1 := ⟨f - 1, by omega⟩
        simp only [parseMems]
        rw [show dumpStr qk ++ (':' :: ' ' :: (jsonDump qv lvl ++
            (dumpMems ((q2k, q2v) :: qs') lvl ++ (nlInd lvl2 ++ ('\x7d' :: rest)))))
            = '"' :: ((qk.flatMap escChar ++ ['"']) ++ (':' :: ' ' :: (jsonDump qv lvl ++
              (dumpMems ((q2k, q2v) :: qs') lvl ++ (nlInd lvl2 ++ ('\x7d' :: rest)))))) by
          simp [dumpStr]]
        rw [skipWs_cons_notWs (by decide)]
        simp +decide only [if_true, if_false]
        rw [show (qk.flatMap escChar ++ ['"']) ++ (':' :: ' ' :: (jsonDump qv lvl ++
            (dumpMems ((q2k, q2v) :: qs') lvl ++ (nlInd lvl2 ++ ('\x7d' :: rest)))))
            = qk.flatMap escChar ++ '"' :: (':' :: ' ' :: (jsonDump qv lvl ++
              (dumpMems ((q2k, q2v) :: qs') lvl ++ (nlInd lvl2 ++ ('\x7d' :: rest))))) by
          simp]
        rw [parseStr_dump qk _ _ (by simp [List.length_append])]
        simp only [Option.some_bind]
        rw [skipWs_cons_notWs (by decide)]
        simp +decide only [if_true, if_false]
        rw [show ' ' :: (jsonDump qv lvl ++ (dumpMems ((q2k, q2v) :: qs') lvl ++
            (nlInd lvl2 ++ ('\x7d' :: rest)))) = [' '] ++ (jsonDump qv lvl ++
              (dumpMems ((q2k, q2v) :: qs') lvl ++ (nlInd lvl2 ++ ('\x7d' :: rest))))
          from rfl]
        rw [parseVal_ws f' [' '] _ (by decide)]
        rw [hA qv (by omega) hwfv lvl _ f' (sepOK_dumpMems _ _ _ _) (by omega)]
        simp only [Option.some_bind]
        have hM : dumpMems ((q2k, q2v) :: qs') lvl ++ (nlInd lvl2 ++ ('\x7d' :: rest))
            = ',' :: (nlInd lvl ++ (dumpStr q2k ++ (':' :: ' ' :: (jsonDump q2v lvl ++
              (dumpMems qs' lvl ++ (nlInd lvl2 ++ ('\x7d' :: rest))))))) := by
          simp [dumpMems, List.append_assoc]
        rw [hM, skipWs_cons_notWs (by decide)]
        simp +decide only [if_true, if_false]
        rw [parseMems_ws f' (nlInd lvl) _ (nlInd_ws _),
          ihqs q2k q2v (by omega) hwfq2.1 hwfq2.2 lvl lvl2 rest f' hsep (by omega)]
        rfl

/-- Everything `json.loads` returns is well-formed. -/
theorem jsonLoads_wf {s : List Char} {v : JsonVal} (h : jsonLoads s = some v) :
    wfJ v = true := by
  unfold jsonLoads at h
  cases hp : parseVal (2 * s.length + 2) s with
  | none => rw [hp] at h; simp at h
  | some p =>
    obtain ⟨pv, pr⟩ := p
    rw [hp] at h
    simp only [] at h
    split_ifs at h with hws
    · simp only [Option.some.injEq] at h
      rw [← h]
      exact (parse_wf_all _).1 s pv pr hp

/-- The serializer's output parses back to the very value that was written. -/
theorem jsonLoads_dump {v : JsonVal} (hwf : wfJ v = true) :
    jsonLoads (jsonDump v 0) = some v := by
  have h := (parse_dump_main (sizeOf v)).1 v (Nat.le_refl _) hwf 0 []
    (2 * (jsonDump v 0).length + 2) rfl (by omega)
  rw [List.append_nil] at h
  unfold jsonLoads
  rw [h]
  simp [skipWs]

/-! ## Claim C5: the dump step is idempotent -/

/-- C5: for every parsed value the script writes, parsing the serialized
output succeeds and returns the same value, so re-serializing it with the
same settings yields text identical to that output. -/
theorem c5_dump_roundtrip (c : List Char) (v : JsonVal) (n : Nat)
    (h1 : jsonLoads (applyFixes c) = some v) (_h2 : pyLen v = some n) :
    jsonLoads (jsonDump v 0) = some v ∧
      ∀ v', jsonLoads (jsonDump v 0) = some v' → jsonDump v' 0 = jsonDump v 0 := by
  have hrt := jsonLoads_dump (jsonLoads_wf h1)
  refine ⟨hrt, fun v' hv' => ?_⟩
  rw [hrt] at hv'
  cases Option.some.inj hv'
  rfl

/-- Witness for C5 at the concrete input `"[]"`. -/
theorem c5_witness :
    jsonLoads (applyFixes (("[]").toList)) = some (JsonVal.arr []) ∧
      pyLen (JsonVal.arr []) = some 0 ∧
      jsonLoads (jsonDump (JsonVal.arr []) 0) = some (JsonVal.arr []) := by
  refine ⟨rfl, rfl, ?_⟩
  exact (c5_dump_roundtrip (("[]").toList) (JsonVal.arr []) 0 rfl rfl).1
